import Mathlib

/-!
Verification of the sexpr-fmt core (src/sexpr.rs, src/main.rs): a
recursive-descent S-expression parser with a cached per-node complexity
and a pretty-printer choosing inline or multiline layout per node.

The Rust code is embedded shallowly: strings are `List Char`, the output
sink is the list of characters written, Rust `u32` arithmetic on the
cached complexity is `Nat` arithmetic modulo 2^32, and fallible code
returns a `PResult` that distinguishes parse errors from Rust panics
(byte slicing off a UTF-8 character boundary).  The recursive parser is
modeled with explicit fuel; the fuel supplied by `parse` is proved
sufficient below, so the `.fuel` outcome is unreachable.
-/

set_option linter.unusedVariables false

namespace SexprFmt

/-- Unicode White_Space code points: the set recognized by Rust
`char::is_whitespace`, which `str::trim` and `is_ident` consult. -/
def isRustWhitespace (c : Char) : Bool :=
  let n := c.toNat
  n == 0x9 || n == 0xA || n == 0xB || n == 0xC || n == 0xD || n == 0x20 ||
  n == 0x85 || n == 0xA0 || n == 0x1680 || (0x2000 ≤ n && n ≤ 0x200A) ||
  n == 0x2028 || n == 0x2029 || n == 0x202F || n == 0x205F || n == 0x3000

/-- Model of `str::trim`: drop whitespace characters from both ends. -/
def trimRust (cs : List Char) : List Char :=
  ((cs.dropWhile isRustWhitespace).reverse.dropWhile isRustWhitespace).reverse

/-- The leading-whitespace half of `trim`. -/
def trimStart (l : List Char) : List Char := l.dropWhile isRustWhitespace

/-- The trailing-whitespace half of `trim`. -/
def trimEnd (l : List Char) : List Char :=
  (l.reverse.dropWhile isRustWhitespace).reverse

/-- Every character is ASCII (single-byte in UTF-8). -/
def allAscii (l : List Char) : Bool := l.all (fun c => decide (c.toNat < 128))

/-- `is_ident` from src/sexpr.rs lines 179-181, specialized to the single
character in the one-byte slice `&input[idx..idx+1]` the code passes it. -/
def is_ident (c : Char) : Bool :=
  c != '(' && c != ')' && !(isRustWhitespace c)

mutual
/-- `Sexpr` from src/sexpr.rs: the Rust struct `{ kind, complexity }` with
`SexprKind = Atom(&str) | Compound(Box<Sexpr>, Vec<Sexpr>)` is flattened
into one inductive whose two constructors each carry the cached
`complexity` field (a Rust `u32`, modeled as `Nat`; the parser stores
values reduced modulo 2^32). -/
inductive Sexpr : Type where
  | atom (text : List Char) (complexity : Nat) : Sexpr
  | compound (head : Sexpr) (args : SexprList) (complexity : Nat) : Sexpr
/-- The `Vec<Sexpr>` of compound arguments, as a mutually defined list. -/
inductive SexprList : Type where
  | nil : SexprList
  | cons (head : Sexpr) (tail : SexprList) : SexprList
end

/-- The cached `complexity` field. -/
def Sexpr.complexity : Sexpr → Nat
  | .atom _ n => n
  | .compound _ _ n => n

/-- `Sexpr::blank()`: the empty atom used as the "no more siblings" sentinel. -/
def Sexpr.blank : Sexpr := .atom [] 0

/-- `Sexpr::is_blank` (src/sexpr.rs lines 88-94). -/
def Sexpr.is_blank : Sexpr → Bool
  | .atom text _ => text.isEmpty
  | .compound .. => false

/-- `Sexpr::is_named` (src/sexpr.rs lines 82-87). -/
def Sexpr.is_named : Sexpr → List Char → Bool
  | .atom name _, text => name == text
  | .compound .., _ => false

/-- 2^32, the modulus of Rust `u32` arithmetic. -/
def u32Mod : Nat := 4294967296

/-- Outcome of running a piece of the parser: a value, a `ParseError`
(the Rust `&'static str`), a Rust panic (string slicing that is not on a
UTF-8 character boundary), or fuel exhaustion of the fueled model. -/
inductive PResult (α : Type) : Type where
  | ok : α → PResult α
  | err : String → PResult α
  | panicked : PResult α
  | fuel : PResult α

/-- The spec's UnclosedInput error: the string returned at src/sexpr.rs line 24. -/
def UnclosedInput : String := "unclosed sexpr"

/-- The spec's UnterminatedCompound error: the string returned at line 52. -/
def UnterminatedCompound : String := "malformed sexpr: expected `)`, found EOI"

/-- The spec's MalformedCompound error: the string returned at line 56. -/
def MalformedCompound : String := "malformed sexpr: expected `)`, found something else"

/-- The atom-scanning loop of `Sexpr::parse_helper` (lines 65-69): starting
from the trimmed input, advance one byte at a time while the one-byte slice
`&input[idx..idx+1]` is an identifier character.  That slice panics when the
character at `idx` occupies more than one byte (any non-ASCII character),
before `is_ident` is ever consulted. -/
def scanAtom : List Char → PResult (List Char × List Char)
  | [] => .ok ([], [])
  | c :: rest =>
    if c.toNat ≥ 128 then .panicked
    else if is_ident c then
      match scanAtom rest with
      | .ok (item, rem) => .ok (c :: item, rem)
      | .err m => .err m
      | .panicked => .panicked
      | .fuel => .fuel
    else .ok ([], c :: rest)

mutual
/-- `Sexpr::parse_helper` (src/sexpr.rs lines 28-76), with explicit fuel.
The input is trimmed; empty input yields the blank sentinel with an empty
remainder.  `input.split_at(1)` panics when the first character is
non-ASCII (byte 1 is then not a character boundary).  A `(` starts a
compound: the head is parsed at the same level, then the argument loop
runs, then the trimmed remainder must start with `)` (the same
`split_at(1)` panic applies there).  The compound's cached complexity is
`complexity + 1` in `u32` arithmetic.  Any other first character starts
an atom scan.  (The `head.is_empty()` arm at lines 60-61 is unreachable
because the input was checked nonempty, and is omitted.) -/
def parse_helperF : Nat → List Char → PResult (Sexpr × List Char)
  | 0, _ => .fuel
  | n+1, input =>
    match trimRust input with
    | [] => .ok (Sexpr.blank, [])
    | c :: rest =>
      if c.toNat ≥ 128 then .panicked
      else if c = '(' then
        match parse_helperF n rest with
        | .ok (first, r1) =>
          match parseArgsF n first.complexity r1 with
          | .ok (args, cx, rem) =>
            match trimRust rem with
            | [] => .err UnterminatedCompound
            | d :: rem3 =>
              if d.toNat ≥ 128 then .panicked
              else if d = ')' then
                .ok (.compound first args ((cx + 1) % u32Mod), rem3)
              else .err MalformedCompound
          | .err m => .err m
          | .panicked => .panicked
          | .fuel => .fuel
        | .err m => .err m
        | .panicked => .panicked
        | .fuel => .fuel
      else
        match scanAtom (c :: rest) with
        | .ok (item, rem) => .ok (.atom item 0, rem)
        | .err m => .err m
        | .panicked => .panicked
        | .fuel => .fuel
  termination_by structural n input => n
/-- The argument-collecting `while` loop of `parse_helper` (lines 39-48):
`cx` is the running `complexity` variable (started at the head's cached
complexity).  The loop exits when the remainder is empty, or breaks when a
sub-parse yields the blank sentinel — in the latter case `remaining`
keeps its pre-call value, exactly as in the Rust code where `remaining =
tail` is only assigned after the blank check. -/
def parseArgsF : Nat → Nat → List Char → PResult (SexprList × Nat × List Char)
  | 0, _, _ => .fuel
  | n+1, cx, remaining =>
    if remaining.isEmpty then .ok (.nil, cx, remaining)
    else
      match parse_helperF n remaining with
      | .ok (s, tail) =>
        if s.is_blank then .ok (.nil, cx, remaining)
        else
          match parseArgsF n (Nat.max cx s.complexity) tail with
          | .ok (args, cx2, rem2) => .ok (.cons s args, cx2, rem2)
          | .err m => .err m
          | .panicked => .panicked
          | .fuel => .fuel
      | .err m => .err m
      | .panicked => .panicked
      | .fuel => .fuel
  termination_by structural n cx remaining => n
end

/-- `Sexpr::parse_helper` with the fuel `2·|input| + 1`, proved sufficient
below: with it the function never returns `.fuel`. -/
def parse_helper (input : List Char) : PResult (Sexpr × List Char) :=
  parse_helperF (2 * input.length + 1) input

/-- The argument loop with its sufficient fuel `2·|remaining| + 2`. -/
def parse_args (cx : Nat) (remaining : List Char) :
    PResult (SexprList × Nat × List Char) :=
  parseArgsF (2 * remaining.length + 2) cx remaining

/-- `Sexpr::parse` (src/sexpr.rs lines 21-27): run `parse_helper` on the
whole input and reject a nonempty remainder as "unclosed sexpr". -/
def parse (input : List Char) : PResult Sexpr :=
  match parse_helper input with
  | .ok (sexpr, tail) => if tail.isEmpty then .ok sexpr else .err UnclosedInput
  | .err m => .err m
  | .panicked => .panicked
  | .fuel => .fuel

/-- `FormatArgs` from src/sexpr.rs lines 144-150 (`depth : usize`,
`complexity_threshold : u32`, `short_quantifiers : bool`). -/
structure FormatArgs where
  depth : Nat
  complexity_threshold : Nat
  short_quantifiers : Bool

/-- `FormatArgs::new()` (lines 152-159): the defaults the `fmt::Display`
impl formats with. -/
def FormatArgs.new : FormatArgs := ⟨0, 1, false⟩

/-- `FormatArgs::with_depth` (lines 167-173): copy with only `depth` changed. -/
def FormatArgs.with_depth (a : FormatArgs) (d : Nat) : FormatArgs :=
  ⟨d, a.complexity_threshold, a.short_quantifiers⟩

/-- `FormatArgs::tab` (lines 174-176): `depth` spaces. -/
def FormatArgs.tab (a : FormatArgs) : List Char := List.replicate a.depth ' '

mutual
/-- `Sexpr::write_helper` (src/sexpr.rs lines 103-142).  The output is the
list of characters written to the sink.  Atoms print their text.  For a
compound, inline mode (`complexity <= threshold`) uses `new_depth = 0`,
separator `" "` and empty line prefix; multiline mode uses `new_depth =
depth + 4`, separator `"\n    "` and line prefix `tab` (the node's own
`depth` spaces).  The head is printed by `write!(f, "({}", head)`, that
is through the `fmt::Display` impl (lines 193-199), which formats the
head with `FormatArgs::new()` — not with the current `args`.  The
compaction test mirrors Rust operator precedence: `args.short_quantifiers
&& head.is_named("forall") || head.is_named("exists")` groups as
`(short_quantifiers && forall) || exists`; when it fires and an argument
exists, the first argument is written after a single space with `args`
unchanged.  When it fires with no arguments (`if let Some(..)` fails) the
loop body is empty, so the output is just head and closing.  The closing
`)` is preceded by a newline and `tab` exactly when `complexity >
threshold`. -/
def write_helper : Sexpr → FormatArgs → List Char
  | .atom text _, _ => text
  | .compound head subformulas complexity, args =>
    let new_depth := if complexity ≤ args.complexity_threshold then 0 else args.depth + 4
    let sep := if complexity ≤ args.complexity_threshold then [' ']
               else '\n' :: List.replicate 4 ' '
    let linePre := if complexity ≤ args.complexity_threshold then [] else args.tab
    let headText := write_helper head FormatArgs.new
    let closing := (if args.complexity_threshold < complexity
                    then '\n' :: args.tab else []) ++ [')']
    if (args.short_quantifiers && head.is_named "forall".data)
        || head.is_named "exists".data then
      match subformulas with
      | .cons first rest =>
        '(' :: headText ++ (' ' :: write_helper first args)
          ++ write_rest rest sep linePre (args.with_depth new_depth) ++ closing
      | .nil => '(' :: headText ++ closing
    else
      '(' :: headText
        ++ write_rest subformulas sep linePre (args.with_depth new_depth) ++ closing
/-- The `for sexpr in subformula_iter` loop (lines 130-133): every element
still in the iterator is preceded by `sep` and the line prefix and written
at the updated depth. -/
def write_rest : SexprList → List Char → List Char → FormatArgs → List Char
  | .nil, _, _, _ => []
  | .cons s rest, sep, pre, cfg =>
    sep ++ pre ++ write_helper s cfg ++ write_rest rest sep pre cfg
end

/-- The `fmt::Display` impl for `Sexpr` (lines 193-199): format with
`FormatArgs::new()`. -/
def displaySexpr (s : Sexpr) : List Char := write_helper s FormatArgs.new

/-! ### Reference definitions written from the spec's words -/

mutual
/-- Modelled from the spec: the reference complexity.  An atom has
complexity 0; a compound has complexity `1 + max(complexity of head,
complexity of each argument)`, hence `1 + complexity(head)` when there
are no arguments. -/
def refComplexity : Sexpr → Nat
  | .atom _ _ => 0
  | .compound h args _ => 1 + refFold (refComplexity h) args
/-- Maximum of an accumulator and the reference complexities of a list. -/
def refFold : Nat → SexprList → Nat
  | acc, .nil => acc
  | acc, .cons a t => refFold (Nat.max acc (refComplexity a)) t
end

mutual
/-- Every node's cached complexity equals its reference complexity. -/
def complexityConsistent : Sexpr → Bool
  | .atom _ n => n == 0
  | .compound h args n =>
    (n == 1 + refFold (refComplexity h) args)
      && complexityConsistent h && consistentList args
/-- `complexityConsistent` over an argument list. -/
def consistentList : SexprList → Bool
  | .nil => true
  | .cons a t => complexityConsistent a && consistentList t
end

/-- The running maximum the parser's argument loop computes over the
cached complexities of a list, started from an accumulator. -/
def maxCached : Nat → SexprList → Nat
  | acc, .nil => acc
  | acc, .cons a t => maxCached (Nat.max acc a.complexity) t

/-- Emptiness of an argument list. -/
def isNilL : SexprList → Bool
  | .nil => true
  | .cons _ _ => false

mutual
/-- Shape invariant of every tree `parse_helper` returns: atom text is a
run of ASCII identifier characters and atom complexity is 0; a compound's
head and arguments are wellformed, its arguments are nonblank, a blank
head forces an empty argument list, and the cached complexity is the
parser's `u32`-wrapped bottom-up value. -/
def wfS : Sexpr → Bool
  | .atom text n => text.all (fun c => decide (c.toNat < 128) && is_ident c) && n == 0
  | .compound h args n =>
    wfS h && wfL args && (!h.is_blank || isNilL args)
      && (n == (maxCached h.complexity args + 1) % u32Mod)
/-- `wfS` over an argument list, with nonblankness of every element. -/
def wfL : SexprList → Bool
  | .nil => true
  | .cons a t => !a.is_blank && wfS a && wfL t
end

mutual
/-- The blank sentinel never occurs among any compound's arguments
anywhere in the tree (head positions are unconstrained). -/
def argsBlankFree : Sexpr → Bool
  | .atom _ _ => true
  | .compound h args _ => argsBlankFree h && argsBlankFreeList args
/-- `argsBlankFree` over an argument list. -/
def argsBlankFreeList : SexprList → Bool
  | .nil => true
  | .cons a t => !a.is_blank && argsBlankFree a && argsBlankFreeList t
end

mutual
/-- C9's claimed invariant: the blank sentinel occurs nowhere strictly
inside the tree — neither as any compound's head nor among arguments. -/
def blankFree : Sexpr → Bool
  | .atom _ _ => true
  | .compound h args _ => !h.is_blank && blankFree h && blankFreeList args
/-- `blankFree` over an argument list. -/
def blankFreeList : SexprList → Bool
  | .nil => true
  | .cons a t => !a.is_blank && blankFree a && blankFreeList t
end

/-- Concatenation of rendered arguments, each preceded by the same
chunk of separator text. -/
def mapJoinArgs (f : Sexpr → List Char) (pre : List Char) : SexprList → List Char
  | .nil => []
  | .cons a t => pre ++ f a ++ mapJoinArgs f pre t

/-- Modelled from the spec (claim C2's layout description): a compound of
complexity at most the threshold renders as head, then each argument
preceded by a single space, with `)` immediately after the last argument;
otherwise each argument is preceded by a newline and `depth + 4` spaces
and the closing `)` by a newline and `depth` spaces.  Sub-terms are
rendered by the code's own renderer (heads through `fmt::Display`). -/
def claimC2rhs (cfg : FormatArgs) : Sexpr → List Char
  | .atom text _ => text
  | .compound head args n =>
    if n ≤ cfg.complexity_threshold then
      '(' :: write_helper head FormatArgs.new
        ++ mapJoinArgs (fun a => write_helper a (cfg.with_depth 0)) [' '] args ++ [')']
    else
      '(' :: write_helper head FormatArgs.new
        ++ mapJoinArgs (fun a => write_helper a (cfg.with_depth (cfg.depth + 4)))
            ('\n' :: List.replicate (cfg.depth + 4) ' ') args
        ++ '\n' :: (List.replicate cfg.depth ' ' ++ [')'])

mutual
/-- Modelled from the spec (claim C3's words): the renderer C3 describes,
identical to `write_helper` except that a compound head in head position
is rendered by a recursive call that keeps the threshold and
short_quantifiers of the supplied config (only depth may change), instead
of going through `fmt::Display` with the default config. -/
def claimC3render : Sexpr → FormatArgs → List Char
  | .atom text _, _ => text
  | .compound head subformulas complexity, args =>
    let new_depth := if complexity ≤ args.complexity_threshold then 0 else args.depth + 4
    let sep := if complexity ≤ args.complexity_threshold then [' ']
               else '\n' :: List.replicate 4 ' '
    let linePre := if complexity ≤ args.complexity_threshold then [] else args.tab
    let headText := claimC3render head args
    let closing := (if args.complexity_threshold < complexity
                    then '\n' :: args.tab else []) ++ [')']
    if (args.short_quantifiers && head.is_named "forall".data)
        || head.is_named "exists".data then
      match subformulas with
      | .cons first rest =>
        '(' :: headText ++ (' ' :: claimC3render first args)
          ++ claimC3rest rest sep linePre (args.with_depth new_depth) ++ closing
      | .nil => '(' :: headText ++ closing
    else
      '(' :: headText
        ++ claimC3rest subformulas sep linePre (args.with_depth new_depth) ++ closing
/-- The argument loop of `claimC3render`. -/
def claimC3rest : SexprList → List Char → List Char → FormatArgs → List Char
  | .nil, _, _, _ => []
  | .cons s rest, sep, pre, cfg =>
    sep ++ pre ++ claimC3render s cfg ++ claimC3rest rest sep pre cfg
end

mutual
/-- `write_helper` with the two config fields lifted into fixed
parameters: `thr` and `sq` are threaded unchanged into every argument
call (only the depth argument varies), while a compound head in head
position is rendered with the `fmt::Display` defaults `1, false, 0`. -/
def renderFixed (thr : Nat) (sq : Bool) : Nat → Sexpr → List Char
  | _, .atom text _ => text
  | d, .compound head subformulas n =>
    let nd := if n ≤ thr then 0 else d + 4
    let sep := if n ≤ thr then [' '] else '\n' :: List.replicate 4 ' '
    let pre := if n ≤ thr then [] else List.replicate d ' '
    let headText := renderFixed 1 false 0 head
    let closing := (if thr < n then '\n' :: List.replicate d ' ' else []) ++ [')']
    if (sq && head.is_named "forall".data) || head.is_named "exists".data then
      match subformulas with
      | .cons first rest =>
        '(' :: headText ++ (' ' :: renderFixed thr sq d first)
          ++ renderFixedRest thr sq nd rest sep pre ++ closing
      | .nil => '(' :: headText ++ closing
    else
      '(' :: headText ++ renderFixedRest thr sq nd subformulas sep pre ++ closing
/-- The argument loop of `renderFixed`. -/
def renderFixedRest (thr : Nat) (sq : Bool) : Nat → SexprList → List Char → List Char → List Char
  | _, .nil, _, _ => []
  | d, .cons s rest, sep, pre =>
    sep ++ pre ++ renderFixed thr sq d s ++ renderFixedRest thr sq d rest sep pre
end

/-! ### Concrete trees used in the claim-level evaluations -/

/-- Shorthand for atoms as produced by the parser. -/
def mkAtom (s : String) : Sexpr := .atom s.data 0

/-- The tree of `(b c)`. -/
def treeBC : Sexpr := .compound (mkAtom "b") (.cons (mkAtom "c") .nil) 1

/-- The tree of `(e f)`. -/
def treeEF : Sexpr := .compound (mkAtom "e") (.cons (mkAtom "f") .nil) 1

/-- The tree of `(d (e f))`. -/
def treeDEF : Sexpr := .compound (mkAtom "d") (.cons treeEF .nil) 2

/-- The tree of `(a (b c) (d (e f)))`. -/
def tree7 : Sexpr := .compound (mkAtom "a") (.cons treeBC (.cons treeDEF .nil)) 3

/-- The tree of `(P x)`. -/
def treePx : Sexpr := .compound (mkAtom "P") (.cons (mkAtom "x") .nil) 1

/-- The tree of `(exists x (P x))`. -/
def treeExists : Sexpr :=
  .compound (mkAtom "exists") (.cons (mkAtom "x") (.cons treePx .nil)) 2

/-- The tree of `(forall x y)`. -/
def treeForallXY : Sexpr :=
  .compound (mkAtom "forall") (.cons (mkAtom "x") (.cons (mkAtom "y") .nil)) 1

/-- The tree of `(a (b c))`. -/
def treeABC : Sexpr := .compound (mkAtom "a") (.cons treeBC .nil) 2

/-- The tree of `((a (b c)) d)`: a compound in head position. -/
def treeHeadPos : Sexpr := .compound treeABC (.cons (mkAtom "d") .nil) 3

/-! ### Claim theorems -/

/-- C5: parse maps each malformed input to the spec's error taxonomy:
`parse("(a")` and `parse("(a b")` return UnterminatedCompound (input
exhausted before the closing `)`), and `parse("a b)")` and `parse("(a))")`
return UnclosedInput (non-whitespace content remaining after one complete
top-level expression); in every such case only an error value and no tree
is returned. -/
theorem claim_C5_error_taxonomy :
    parse "(a".data = .err UnterminatedCompound ∧
    parse "(a b".data = .err UnterminatedCompound ∧
    parse "a b)".data = .err UnclosedInput ∧
    parse "(a))".data = .err UnclosedInput :=
  ⟨rfl, rfl, rfl, rfl⟩

/-- C7 counterexample: parsing `"(a (b c) (d (e f)))"` succeeds with the
complexities the claim states, but rendering with threshold 1 does not
produce the claimed two-line output `"(a (b c)\n    (d (e f)))"`: in the
code's multiline layout every argument — the first included — is preceded
by a newline, and the closing parenthesis of a multiline node gets its
own line, so the claimed output is impossible. -/
theorem claim_C7_counterexample :
    parse "(a (b c) (d (e f)))".data = .ok tree7 ∧
    write_helper tree7 ⟨0, 1, false⟩ ≠ "(a (b c)\n    (d (e f)))".data :=
  ⟨rfl, by decide⟩

/-- C7 amended: parsing `"(a (b c) (d (e f)))"` succeeds with complexity 1
for `(e f)`, 2 for `(d (e f))`, 1 for `(b c)` and 3 for the whole tree,
and rendering with threshold 1 (outer node and `(d (e f))` multiline,
`(b c)` and `(e f)` inline) produces exactly
`"(a\n    (b c)\n    (d\n        (e f)\n    )\n)"`. -/
theorem claim_C7_amended :
    parse "(a (b c) (d (e f)))".data = .ok tree7 ∧
    treeEF.complexity = 1 ∧ treeDEF.complexity = 2 ∧
    treeBC.complexity = 1 ∧ tree7.complexity = 3 ∧
    write_helper tree7 ⟨0, 1, false⟩ =
      "(a\n    (b c)\n    (d\n        (e f)\n    )\n)".data :=
  ⟨rfl, rfl, rfl, rfl, rfl, rfl⟩

/-- C9 counterexample: `parse("()")` succeeds, the returned tree is not
the bare blank node, and yet the blank sentinel occurs inside it, as the
compound's head. -/
theorem claim_C9_counterexample :
    parse "()".data = .ok (.compound Sexpr.blank .nil 1) ∧
    Sexpr.is_blank (.compound Sexpr.blank .nil 1) = false ∧
    blankFree (.compound Sexpr.blank .nil 1) = false :=
  ⟨rfl, rfl, rfl⟩

/-- C4: evaluation at the failing input.  For the tree of
`"(exists x (P x))"` with short_quantifiers = false and threshold 1 the
code still applies quantifier compaction — the first argument `x` stays
glued to the head instead of starting its own indented line — and the
output is byte-identical to the short_quantifiers = true output.  The
cause is Rust operator precedence at src/sexpr.rs line 122:
`args.short_quantifiers && head.is_named("forall") ||
head.is_named("exists")` groups as `(sq && forall) || exists`, while the
comment right below (lines 124-125) says compaction requires the command
line option to be set. -/
theorem claim_C4_code_bug_eval :
    parse "(exists x (P x))".data = .ok treeExists ∧
    write_helper treeExists ⟨0, 1, false⟩ = "(exists x\n    (P x)\n)".data ∧
    write_helper treeExists ⟨0, 1, true⟩ = "(exists x\n    (P x)\n)".data ∧
    write_helper treeExists ⟨0, 1, false⟩ ≠ "(exists\n    x\n    (P x)\n)".data :=
  ⟨rfl, rfl, rfl, by decide⟩

/-- C2 counterexample: for the tree of `(forall x y)` with
short_quantifiers = true and threshold 0 (multiline mode), the rendering
is not the claimed layout — quantifier compaction glues the first
argument to the head instead of preceding it with a newline and
`depth + 4` spaces. -/
theorem claim_C2_counterexample :
    write_helper treeForallXY ⟨0, 0, true⟩ ≠ claimC2rhs ⟨0, 0, true⟩ treeForallXY := by
  decide

/-- C3 counterexample: for the tree of `"((a (b c)) d)"` and a config with
threshold 5, the code's rendering differs from the renderer the claim
describes: the head-position compound `(a (b c))` has complexity 2, which
is at most the supplied threshold 5, yet the code renders it through
`fmt::Display` with the default threshold 1 and therefore multiline. -/
theorem claim_C3_counterexample :
    write_helper treeHeadPos ⟨0, 5, false⟩ ≠ claimC3render treeHeadPos ⟨0, 5, false⟩ := by
  decide

/-- C8 counterexample: on the single-character non-ASCII input `"é"` the
parser does not return a value or an error: `input.split_at(1)` slices
off a UTF-8 character boundary and panics. -/
theorem claim_C8_counterexample :
    parse ['é'] = .panicked ∧ parse "aé".data = .panicked :=
  ⟨rfl, rfl⟩

/-- The subformula loop is the join of the per-argument chunks. -/
theorem write_rest_eq_mapJoin : ∀ (l : SexprList) (sep pre : List Char) (cfg : FormatArgs),
    write_rest l sep pre cfg = mapJoinArgs (fun a => write_helper a cfg) (sep ++ pre) l
  | .nil, _, _, _ => rfl
  | .cons a t, sep, pre, cfg => by
    rw [write_rest, mapJoinArgs, write_rest_eq_mapJoin t]

/-- C2 amended: for every compound node at which quantifier compaction
does not fire (i.e. not ((short_quantifiers and head is the atom
`forall`) or head is the atom `exists`)), render lays the node out
exactly as the claim describes: complexity at most the threshold gives
inline layout (head, each argument after a single space, `)` immediately
after the last argument), anything else gives multiline layout (each
argument preceded by a newline and exactly depth + 4 spaces, the closing
`)` preceded by a newline and exactly depth spaces). -/
theorem claim_C2_amended (head : Sexpr) (args : SexprList) (n : Nat) (cfg : FormatArgs)
    (h : ((cfg.short_quantifiers && head.is_named "forall".data)
          || head.is_named "exists".data) = false) :
    write_helper (.compound head args n) cfg = claimC2rhs cfg (.compound head args n) := by
  rw [write_helper.eq_def]
  by_cases hc : n ≤ cfg.complexity_threshold
  · simp [claimC2rhs, h, hc, Nat.not_lt.mpr hc, write_rest_eq_mapJoin]
  · have hc' : cfg.complexity_threshold < n := Nat.not_le.mp hc
    have hrep : (' ' :: ' ' :: ' ' :: ' ' :: List.replicate cfg.depth ' ')
        = List.replicate (cfg.depth + 4) ' ' := by
      rw [show (' ' :: ' ' :: ' ' :: ' ' :: List.replicate cfg.depth ' ')
          = List.replicate 4 ' ' ++ List.replicate cfg.depth ' ' from rfl,
        ← List.replicate_add, Nat.add_comm]
    simp [claimC2rhs, h, hc, hc', write_rest_eq_mapJoin, FormatArgs.tab,
      hrep, List.append_assoc]

/-- C2 witness: the amended statement applied at the inline compound
`(b c)` with the default config, where compaction does not fire. -/
theorem claim_C2_witness :
    (((FormatArgs.mk 0 1 false).short_quantifiers
        && (mkAtom "b").is_named "forall".data)
      || (mkAtom "b").is_named "exists".data) = false ∧
    write_helper (.compound (mkAtom "b") (.cons (mkAtom "c") .nil) 1) ⟨0, 1, false⟩
      = claimC2rhs ⟨0, 1, false⟩ (.compound (mkAtom "b") (.cons (mkAtom "c") .nil) 1) :=
  ⟨by decide, claim_C2_amended (mkAtom "b") (.cons (mkAtom "c") .nil) 1 ⟨0, 1, false⟩
    (by decide)⟩

mutual
/-- `write_helper` threads the threshold and short_quantifiers unchanged
into every argument call, and renders heads with the Display defaults. -/
theorem write_eq_renderFixed : ∀ (t : Sexpr) (d thr : Nat) (sq : Bool),
    write_helper t ⟨d, thr, sq⟩ = renderFixed thr sq d t
  | .atom text n, d, thr, sq => rfl
  | .compound h args n, d, thr, sq => by
    have hh := write_eq_renderFixed h 0 1 false
    have h1 := write_rest_eq_renderFixedRest args
      (if n ≤ thr then [' '] else '\n' :: List.replicate 4 ' ')
      (if n ≤ thr then [] else List.replicate d ' ')
      (if n ≤ thr then 0 else d + 4) thr sq
    cases args with
    | nil =>
      simp only [write_helper, renderFixed, FormatArgs.new, FormatArgs.tab,
        FormatArgs.with_depth, hh]
      split <;> simp_all [write_rest, renderFixedRest]
    | cons first rest =>
      have h2 := write_eq_renderFixed first d thr sq
      have h3 := write_rest_eq_renderFixedRest rest
        (if n ≤ thr then [' '] else '\n' :: List.replicate 4 ' ')
        (if n ≤ thr then [] else List.replicate d ' ')
        (if n ≤ thr then 0 else d + 4) thr sq
      simp only [write_helper, renderFixed, FormatArgs.new, FormatArgs.tab,
        FormatArgs.with_depth, hh, h2, h3]
      split <;> simp_all [write_rest, renderFixedRest]
/-- The subformula loops agree as well. -/
theorem write_rest_eq_renderFixedRest : ∀ (l : SexprList) (sep pre : List Char)
    (d thr : Nat) (sq : Bool),
    write_rest l sep pre ⟨d, thr, sq⟩ = renderFixedRest thr sq d l sep pre
  | .nil, _, _, _, _, _ => rfl
  | .cons s rest, sep, pre, d, thr, sq => by
    rw [write_rest, renderFixedRest, write_eq_renderFixed s d thr sq,
      write_rest_eq_renderFixedRest rest sep pre d thr sq]
end

/-- C3 amended: for every tree and config, render equals the renderer in
which the threshold and short_quantifiers are fixed global parameters —
every argument's recursive call receives exactly the top-level config
with only depth changed — and in which a compound occurring in head
position is rendered with the default config of `FormatArgs::new()`
(depth 0, threshold 1, short_quantifiers false) instead of the supplied
one. -/
theorem claim_C3_amended (t : Sexpr) (cfg : FormatArgs) :
    write_helper t cfg
      = renderFixed cfg.complexity_threshold cfg.short_quantifiers cfg.depth t :=
  write_eq_renderFixed t cfg.depth cfg.complexity_threshold cfg.short_quantifiers


/-! ### Trim and scan lemmas -/

/-- `trim` is first the leading then the trailing half. -/
theorem trimRust_eq_trimEnd_trimStart (l : List Char) :
    trimRust l = trimEnd (trimStart l) := rfl

/-- The head surviving a `dropWhile` fails the predicate. -/
theorem dropWhile_head_false :
    ∀ {l : List Char} {c : Char} {r : List Char},
      l.dropWhile isRustWhitespace = c :: r → isRustWhitespace c = false := by
  intro l
  induction l with
  | nil => intro c r h; simp [List.dropWhile] at h
  | cons a t ih =>
    intro c r h
    rw [List.dropWhile_cons] at h
    by_cases ha : isRustWhitespace a = true
    · simp [ha] at h; exact ih h
    · simp [ha] at h
      rw [← h.1]
      exact Bool.not_eq_true _ ▸ (by simpa using ha)

/-- `dropWhile` is idempotent. -/
theorem dropWhile_idem (l : List Char) :
    (l.dropWhile isRustWhitespace).dropWhile isRustWhitespace
      = l.dropWhile isRustWhitespace := by
  cases h : l.dropWhile isRustWhitespace with
  | nil => rfl
  | cons c r =>
    have hc := dropWhile_head_false h
    rw [List.dropWhile_cons, hc]
    simp

/-- A non-whitespace head survives `trimStart`. -/
theorem trimStart_cons_not_ws {c : Char} {x : List Char}
    (h : isRustWhitespace c = false) : trimStart (c :: x) = c :: x := by
  simp [trimStart, List.dropWhile_cons, h]

/-- `trimStart` swallows a whitespace-only prefix. -/
theorem trimStart_append_ws :
    ∀ {w x : List Char}, w.all isRustWhitespace = true →
      trimStart (w ++ x) = trimStart x := by
  intro w
  induction w with
  | nil => intro x _; rfl
  | cons a t ih =>
    intro x hw
    simp only [List.all_cons, Bool.and_eq_true] at hw
    show List.dropWhile isRustWhitespace (a :: (t ++ x)) = trimStart x
    rw [List.dropWhile_cons, hw.1]
    exact ih hw.2

/-- What `trimEnd` removes is a whitespace-only suffix. -/
theorem trimEnd_decomp (l : List Char) :
    ∃ w, l = trimEnd l ++ w ∧ w.all isRustWhitespace = true := by
  refine ⟨(l.reverse.takeWhile isRustWhitespace).reverse, ?_, ?_⟩
  · conv_lhs => rw [← l.reverse_reverse,
      ← List.takeWhile_append_dropWhile (p := isRustWhitespace) (l := l.reverse)]
    rw [trimEnd, List.reverse_append]
  · simp only [List.all_eq_true]
    intro c hc
    rw [List.mem_reverse] at hc
    have := List.mem_takeWhile_imp hc
    simpa using this

/-- A suffix already free of trailing whitespace protects the whole list. -/
theorem trimEnd_append {x r : List Char} (hr : trimEnd r = r) (hne : r ≠ []) :
    trimEnd (x ++ r) = x ++ r := by
  obtain ⟨c, y, hcy⟩ : ∃ c y, r.reverse = c :: y := by
    cases hrev : r.reverse with
    | nil =>
      exact absurd (by simpa using congrArg List.reverse hrev) hne
    | cons c y => exact ⟨c, y, rfl⟩
  have hdrop : r.reverse.dropWhile isRustWhitespace = r.reverse := by
    have h2 := congrArg List.reverse hr
    simpa [trimEnd] using h2
  have hc : isRustWhitespace c = false := by
    apply dropWhile_head_false (l := r.reverse) (r := y)
    rw [hdrop, hcy]
  rw [trimEnd, List.reverse_append, hcy, List.cons_append, List.dropWhile_cons, hc]
  simp only [Bool.false_eq_true, if_false, ← List.cons_append, ← hcy,
    ← List.reverse_append, List.reverse_reverse]

/-- `trimEnd` of a single non-whitespace character. -/
theorem trimEnd_single {c : Char} (h : isRustWhitespace c = false) :
    trimEnd [c] = [c] := by
  simp [trimEnd, List.dropWhile_cons, h]

/-- `trimEnd` is idempotent. -/
theorem trimEnd_idem (l : List Char) : trimEnd (trimEnd l) = trimEnd l := by
  simp [trimEnd, List.reverse_reverse, dropWhile_idem]

/-- The head of a trimmed nonempty list is not whitespace. -/
theorem trimRust_head_not_ws {l : List Char} {c : Char} {r : List Char}
    (h : trimRust l = c :: r) : isRustWhitespace c = false := by
  rw [trimRust_eq_trimEnd_trimStart] at h
  obtain ⟨w, hw, _⟩ := trimEnd_decomp (trimStart l)
  rw [h, List.cons_append] at hw
  exact dropWhile_head_false (l := l) (r := r ++ w) hw

/-- `trim` is idempotent. -/
theorem trimRust_idem (l : List Char) : trimRust (trimRust l) = trimRust l := by
  rw [trimRust_eq_trimEnd_trimStart (trimRust l)]
  have h1 : trimStart (trimRust l) = trimRust l := by
    cases h : trimRust l with
    | nil => rfl
    | cons c r => rw [trimStart_cons_not_ws (trimRust_head_not_ws h)]
  rw [h1, trimRust_eq_trimEnd_trimStart, trimEnd_idem]

/-- A non-whitespace head survives `trim`. -/
theorem trimRust_cons_not_ws {c : Char} {x : List Char}
    (h : isRustWhitespace c = false) : ∃ y, trimRust (c :: x) = c :: y := by
  rw [trimRust_eq_trimEnd_trimStart, trimStart_cons_not_ws h]
  obtain ⟨w, hw, hwall⟩ := trimEnd_decomp (c :: x)
  cases hE : trimEnd (c :: x) with
  | nil =>
    rw [hE, List.nil_append] at hw
    rw [← hw, List.all_cons, h] at hwall
    simp at hwall
  | cons c2 y =>
    rw [hE, List.cons_append] at hw
    exact ⟨y, by rw [(List.cons.injEq .. ▸ hw : c = c2 ∧ _).1]⟩

/-- `trim` swallows a whitespace-only prefix. -/
theorem trimRust_ws_prepend {w x : List Char} (hw : w.all isRustWhitespace = true) :
    trimRust (w ++ x) = trimRust x := by
  rw [trimRust_eq_trimEnd_trimStart, trimStart_append_ws hw,
    ← trimRust_eq_trimEnd_trimStart]

/-- `trim` never lengthens the input. -/
theorem trimRust_length_le (l : List Char) : (trimRust l).length ≤ l.length := by
  rw [trimRust]
  calc ((l.dropWhile isRustWhitespace).reverse.dropWhile
          isRustWhitespace).reverse.length
      = ((l.dropWhile isRustWhitespace).reverse.dropWhile
          isRustWhitespace).length := List.length_reverse _
    _ ≤ (l.dropWhile isRustWhitespace).reverse.length :=
        (List.dropWhile_sublist _).length_le
    _ = (l.dropWhile isRustWhitespace).length := List.length_reverse _
    _ ≤ l.length := (List.dropWhile_sublist _).length_le

/-- The atom scan either succeeds or panics. -/
theorem scanAtom_cases : ∀ (l : List Char),
    (∃ item rem, scanAtom l = .ok (item, rem)) ∨ scanAtom l = .panicked := by
  intro l
  induction l with
  | nil => exact .inl ⟨[], [], rfl⟩
  | cons c t ih =>
    by_cases hc : c.toNat ≥ 128
    · right; simp [scanAtom, hc]
    · by_cases hi : is_ident c = true
      · rcases ih with ⟨item, rem, h⟩ | h
        · exact .inl ⟨c :: item, rem, by simp [scanAtom, hc, hi, h]⟩
        · right; simp [scanAtom, hc, hi, h]
      · exact .inl ⟨[], c :: t, by simp [scanAtom, hc, hi]⟩

/-- A successful atom scan splits the input. -/
theorem scanAtom_append : ∀ {l item rem : List Char},
    scanAtom l = .ok (item, rem) → item ++ rem = l := by
  intro l
  induction l with
  | nil =>
    intro item rem h
    simp [scanAtom] at h
    obtain ⟨rfl, rfl⟩ := h
    rfl
  | cons c t ih =>
    intro item rem h
    by_cases hc : c.toNat ≥ 128
    · simp [scanAtom, hc] at h
    · by_cases hi : is_ident c = true
      · cases hs : scanAtom t with
        | ok p =>
          obtain ⟨ti, tr⟩ := p
          simp [scanAtom, hc, hi, hs] at h
          obtain ⟨rfl, rfl⟩ := h
          rw [List.cons_append, ih hs]
        | err m => simp [scanAtom, hc, hi, hs] at h
        | panicked => simp [scanAtom, hc, hi, hs] at h
        | fuel => simp [scanAtom, hc, hi, hs] at h
      · simp [scanAtom, hc, hi] at h
        obtain ⟨rfl, rfl⟩ := h
        rfl

/-- A scanned atom is a run of ASCII identifier characters. -/
theorem scanAtom_item_wf : ∀ {l item rem : List Char},
    scanAtom l = .ok (item, rem) →
    item.all (fun c => decide (c.toNat < 128) && is_ident c) = true := by
  intro l
  induction l with
  | nil =>
    intro item rem h
    simp [scanAtom] at h
    obtain ⟨rfl, rfl⟩ := h
    rfl
  | cons c t ih =>
    intro item rem h
    by_cases hc : c.toNat ≥ 128
    · simp [scanAtom, hc] at h
    · by_cases hi : is_ident c = true
      · cases hs : scanAtom t with
        | ok p =>
          obtain ⟨ti, tr⟩ := p
          simp [scanAtom, hc, hi, hs] at h
          obtain ⟨rfl, rfl⟩ := h
          rw [List.all_cons]
          simp [hi, Nat.lt_of_not_le (by simpa using hc), ih hs]
        | err m => simp [scanAtom, hc, hi, hs] at h
        | panicked => simp [scanAtom, hc, hi, hs] at h
        | fuel => simp [scanAtom, hc, hi, hs] at h
      · simp [scanAtom, hc, hi] at h
        obtain ⟨rfl, rfl⟩ := h
        rfl

/-- Where a successful atom scan stops: at the end, or at a
non-identifier character. -/
theorem scanAtom_rem : ∀ {l item rem : List Char},
    scanAtom l = .ok (item, rem) →
    rem = [] ∨ ∃ c y, rem = c :: y ∧ is_ident c = false := by
  intro l
  induction l with
  | nil =>
    intro item rem h
    simp [scanAtom] at h
    obtain ⟨rfl, rfl⟩ := h
    exact .inl rfl
  | cons c t ih =>
    intro item rem h
    by_cases hc : c.toNat ≥ 128
    · simp [scanAtom, hc] at h
    · by_cases hi : is_ident c = true
      · cases hs : scanAtom t with
        | ok p =>
          obtain ⟨ti, tr⟩ := p
          simp [scanAtom, hc, hi, hs] at h
          obtain ⟨rfl, rfl⟩ := h
          exact ih hs
        | err m => simp [scanAtom, hc, hi, hs] at h
        | panicked => simp [scanAtom, hc, hi, hs] at h
        | fuel => simp [scanAtom, hc, hi, hs] at h
      · simp [scanAtom, hc, hi] at h
        obtain ⟨rfl, rfl⟩ := h
        exact .inr ⟨c, t, rfl, by simpa using hi⟩

/-- Scanning a wellformed atom text followed by a stopper recovers the
text exactly. -/
theorem scanAtom_exact : ∀ (text r : List Char),
    text.all (fun c => decide (c.toNat < 128) && is_ident c) = true →
    (r = [] ∨ ∃ c y, r = c :: y ∧ c.toNat < 128 ∧ is_ident c = false) →
    scanAtom (text ++ r) = .ok (text, r) := by
  intro text
  induction text with
  | nil =>
    intro r _ hr
    rcases hr with rfl | ⟨c, y, rfl, hc, hi⟩
    · rfl
    · simp [scanAtom, Nat.not_le.mpr hc, hi]
  | cons c t ih =>
    intro r hall hr
    simp only [List.all_cons, Bool.and_eq_true, decide_eq_true_eq] at hall
    obtain ⟨⟨hc, hi⟩, hrest⟩ := hall
    rw [List.cons_append]
    simp [scanAtom, Nat.not_le.mpr hc, hi,
      ih r (by simpa using hrest) hr]

/-- On ASCII input the atom scan cannot panic, and the remainder stays
ASCII. -/
theorem scanAtom_ascii : ∀ {l : List Char}, allAscii l = true →
    scanAtom l ≠ .panicked ∧
    (∀ item rem, scanAtom l = .ok (item, rem) → allAscii rem = true) := by
  intro l
  induction l with
  | nil =>
    intro _
    refine ⟨by simp [scanAtom], ?_⟩
    intro item rem h
    simp [scanAtom] at h
    obtain ⟨rfl, rfl⟩ := h
    rfl
  | cons c t ih =>
    intro hall
    simp only [allAscii, List.all_cons, Bool.and_eq_true, decide_eq_true_eq] at hall
    obtain ⟨hc, ht⟩ := hall
    have iht := ih (by simpa [allAscii] using ht)
    by_cases hi : is_ident c = true
    · constructor
      · intro h
        cases hs : scanAtom t with
        | ok p => simp [scanAtom, Nat.not_le.mpr hc, hi, hs] at h
        | err m => simp [scanAtom, Nat.not_le.mpr hc, hi, hs] at h
        | panicked => exact iht.1 hs
        | fuel => simp [scanAtom, Nat.not_le.mpr hc, hi, hs] at h
      · intro item rem h
        cases hs : scanAtom t with
        | ok p =>
          obtain ⟨ti, tr⟩ := p
          simp [scanAtom, Nat.not_le.mpr hc, hi, hs] at h
          obtain ⟨rfl, rfl⟩ := h
          exact iht.2 ti tr hs
        | err m => simp [scanAtom, Nat.not_le.mpr hc, hi, hs] at h
        | panicked => simp [scanAtom, Nat.not_le.mpr hc, hi, hs] at h
        | fuel => simp [scanAtom, Nat.not_le.mpr hc, hi, hs] at h
    · constructor
      · intro h; simp [scanAtom, Nat.not_le.mpr hc, hi] at h
      · intro item rem h
        simp [scanAtom, Nat.not_le.mpr hc, hi] at h
        obtain ⟨rfl, rfl⟩ := h
        simp only [allAscii, List.all_cons, Bool.and_eq_true, decide_eq_true_eq]
        exact ⟨hc, by simpa [allAscii] using ht⟩


/-! ### Fuel infrastructure for the parser -/

/-- `parse_helperF` only looks at the trimmed input. -/
theorem parse_helperF_trim (n : Nat) (input : List Char) :
    parse_helperF n input = parse_helperF n (trimRust input) := by
  cases n with
  | zero => rfl
  | succ m =>
    simp only [parse_helperF]
    rw [trimRust_idem]

/-- Remainders never grow, and a nonblank parse strictly consumes input. -/
theorem parseF_consume : ∀ n : Nat,
    (∀ input s r, parse_helperF n input = .ok (s, r) →
      r.length ≤ input.length ∧ (s.is_blank = false → r.length < input.length)) ∧
    (∀ cx rem l cx2 r2, parseArgsF n cx rem = .ok (l, cx2, r2) →
      r2.length ≤ rem.length) := by
  intro n
  induction n with
  | zero =>
    exact ⟨fun input s r h => by simp [parse_helperF] at h,
           fun cx rem l cx2 r2 h => by simp [parseArgsF] at h⟩
  | succ m ih =>
    obtain ⟨ihH, ihA⟩ := ih
    constructor
    · intro input s r h
      simp only [parse_helperF] at h
      have htl := trimRust_length_le input
      cases ht : trimRust input with
      | nil =>
        rw [ht] at h
        simp at h
        obtain ⟨rfl, rfl⟩ := h
        refine ⟨Nat.zero_le _, fun hb => ?_⟩
        simp [Sexpr.is_blank, Sexpr.blank] at hb
      | cons c rest =>
        rw [ht] at h
        rw [ht] at htl
        simp [List.length_cons] at htl
        by_cases hc : c.toNat ≥ 128
        · simp [hc] at h
        · by_cases hp : c = '('
          · cases hh : parse_helperF m rest with
            | ok p =>
              obtain ⟨first, r1⟩ := p
              cases ha : parseArgsF m first.complexity r1 with
              | ok q =>
                obtain ⟨args, cx, rem⟩ := q
                have hrem := trimRust_length_le rem
                cases htr : trimRust rem with
                | nil => simp [hc, hp, hh, ha, htr] at h
                | cons d rem3 =>
                  rw [htr] at hrem
                  simp [List.length_cons] at hrem
                  by_cases hd : d.toNat ≥ 128
                  · simp [hc, hp, hh, ha, htr, hd] at h
                  · by_cases hdp : d = ')'
                    · simp [hc, hp, hh, ha, htr, hd, hdp] at h
                      obtain ⟨rfl, rfl⟩ := h
                      have h1 := (ihH rest first r1 hh).1
                      have h2 := ihA first.complexity r1 args cx rem ha
                      exact ⟨by omega, fun _ => by omega⟩
                    · simp [hc, hp, hh, ha, htr, hd, hdp] at h
              | err m2 => simp [hc, hp, hh, ha] at h
              | panicked => simp [hc, hp, hh, ha] at h
              | fuel => simp [hc, hp, hh, ha] at h
            | err m2 => simp [hc, hp, hh] at h
            | panicked => simp [hc, hp, hh] at h
            | fuel => simp [hc, hp, hh] at h
          · cases hs : scanAtom (c :: rest) with
            | ok p =>
              obtain ⟨item, rem⟩ := p
              simp [hc, hp, hs] at h
              obtain ⟨rfl, rfl⟩ := h
              have happ := scanAtom_append hs
              have hlen : item.length + rem.length = rest.length + 1 := by
                have h3 := congrArg List.length happ
                simpa using h3
              refine ⟨by omega, fun hb => ?_⟩
              have hne : item ≠ [] := by
                intro hnil
                rw [hnil] at hb
                simp [Sexpr.is_blank] at hb
              have h4 : 1 ≤ item.length := by
                cases item with
                | nil => exact absurd rfl hne
                | cons _ _ => simp
              omega
            | err m2 => simp [hc, hp, hs] at h
            | panicked => simp [hc, hp, hs] at h
            | fuel => simp [hc, hp, hs] at h
    · intro cx rem l cx2 r2 h
      simp only [parseArgsF] at h
      by_cases he : rem.isEmpty
      · simp [he] at h
        obtain ⟨rfl, rfl, rfl⟩ := h
        exact Nat.le_refl _
      · cases hh : parse_helperF m rem with
        | ok p =>
          obtain ⟨s, tail⟩ := p
          by_cases hb : s.is_blank
          · simp [he, hh, hb] at h
            obtain ⟨rfl, rfl, rfl⟩ := h
            exact Nat.le_refl _
          · cases ha : parseArgsF m (Nat.max cx s.complexity) tail with
            | ok q =>
              obtain ⟨args2, cx3, r3⟩ := q
              simp [he, hh, hb, ha] at h
              obtain ⟨rfl, rfl, rfl⟩ := h
              have h1 := (ihH rem s tail hh).1
              have h2 := ihA (Nat.max cx s.complexity) tail args2 cx3 r3 ha
              omega
            | err m2 => simp [he, hh, hb, ha] at h
            | panicked => simp [he, hh, hb, ha] at h
            | fuel => simp [he, hh, hb, ha] at h
        | err m2 => simp [he, hh] at h
        | panicked => simp [he, hh] at h
        | fuel => simp [he, hh] at h


/-- Raising the fuel does not change a result that was not out of fuel. -/
theorem parseF_mono : ∀ n : Nat,
    (∀ n' input, n ≤ n' → parse_helperF n input ≠ .fuel →
      parse_helperF n' input = parse_helperF n input) ∧
    (∀ n' cx rem, n ≤ n' → parseArgsF n cx rem ≠ .fuel →
      parseArgsF n' cx rem = parseArgsF n cx rem) := by
  intro n
  induction n with
  | zero =>
    exact ⟨fun n' input _ h => absurd rfl h, fun n' cx rem _ h => absurd rfl h⟩
  | succ m ih =>
    obtain ⟨ihH, ihA⟩ := ih
    constructor
    · intro n' input hle h
      cases n' with
      | zero => omega
      | succ m' =>
        have hle' : m ≤ m' := by omega
        simp only [parse_helperF] at h ⊢
        cases ht : trimRust input with
        | nil => rfl
        | cons c rest =>
          rw [ht] at h
          by_cases hc : c.toNat ≥ 128
          · simp [hc]
          · by_cases hp : c = '('
            · cases hh : parse_helperF m rest with
              | fuel => exact absurd (by simp [hc, hp, hh]) h
              | ok p =>
                obtain ⟨first, r1⟩ := p
                have hH1 : parse_helperF m' rest = .ok (first, r1) := by
                  rw [ihH m' rest hle' (by simp [hh]), hh]
                cases ha : parseArgsF m first.complexity r1 with
                | fuel => exact absurd (by simp [hc, hp, hh, ha]) h
                | ok q =>
                  obtain ⟨args, cx, rem⟩ := q
                  have hA1 : parseArgsF m' first.complexity r1
                      = .ok (args, cx, rem) := by
                    rw [ihA m' first.complexity r1 hle' (by simp [ha]), ha]
                  simp [hc, hp, hh, hH1, ha, hA1]
                | err m2 =>
                  have hA1 : parseArgsF m' first.complexity r1 = .err m2 := by
                    rw [ihA m' first.complexity r1 hle' (by simp [ha]), ha]
                  simp [hc, hp, hh, hH1, ha, hA1]
                | panicked =>
                  have hA1 : parseArgsF m' first.complexity r1 = .panicked := by
                    rw [ihA m' first.complexity r1 hle' (by simp [ha]), ha]
                  simp [hc, hp, hh, hH1, ha, hA1]
              | err m2 =>
                have hH1 : parse_helperF m' rest = .err m2 := by
                  rw [ihH m' rest hle' (by simp [hh]), hh]
                simp [hc, hp, hh, hH1]
              | panicked =>
                have hH1 : parse_helperF m' rest = .panicked := by
                  rw [ihH m' rest hle' (by simp [hh]), hh]
                simp [hc, hp, hh, hH1]
            · simp [hc, hp]
    · intro n' cx rem hle h
      cases n' with
      | zero => omega
      | succ m' =>
        have hle' : m ≤ m' := by omega
        simp only [parseArgsF] at h ⊢
        by_cases he : rem.isEmpty
        · simp [he]
        · cases hh : parse_helperF m rem with
          | fuel => exact absurd (by simp [he, hh]) h
          | ok p =>
            obtain ⟨s, tail⟩ := p
            have hH1 : parse_helperF m' rem = .ok (s, tail) := by
              rw [ihH m' rem hle' (by simp [hh]), hh]
            by_cases hb : s.is_blank
            · simp [he, hh, hH1, hb]
            · cases ha : parseArgsF m (Nat.max cx s.complexity) tail with
              | fuel => exact absurd (by simp [he, hh, hb, ha]) h
              | ok q =>
                obtain ⟨a2, c3, r3⟩ := q
                have hA1 : parseArgsF m' (Nat.max cx s.complexity) tail
                    = .ok (a2, c3, r3) := by
                  rw [ihA m' (Nat.max cx s.complexity) tail hle' (by simp [ha]), ha]
                simp [he, hh, hH1, hb, ha, hA1]
              | err m2 =>
                have hA1 : parseArgsF m' (Nat.max cx s.complexity) tail
                    = .err m2 := by
                  rw [ihA m' (Nat.max cx s.complexity) tail hle' (by simp [ha]), ha]
                simp [he, hh, hH1, hb, ha, hA1]
              | panicked =>
                have hA1 : parseArgsF m' (Nat.max cx s.complexity) tail
                    = .panicked := by
                  rw [ihA m' (Nat.max cx s.complexity) tail hle' (by simp [ha]), ha]
                simp [he, hh, hH1, hb, ha, hA1]
          | err m2 =>
            have hH1 : parse_helperF m' rem = .err m2 := by
              rw [ihH m' rem hle' (by simp [hh]), hh]
            simp [he, hh, hH1]
          | panicked =>
            have hH1 : parse_helperF m' rem = .panicked := by
              rw [ihH m' rem hle' (by simp [hh]), hh]
            simp [he, hh, hH1]

/-- The fuel bounds `2·|input| + 1` for `parse_helperF` and
`2·|remaining| + 2` for `parseArgsF` always suffice. -/
theorem parseF_nofuel : ∀ n : Nat,
    (∀ input, 2 * input.length + 1 ≤ n → parse_helperF n input ≠ .fuel) ∧
    (∀ cx rem, 2 * rem.length + 2 ≤ n → parseArgsF n cx rem ≠ .fuel) := by
  intro n
  induction n with
  | zero => exact ⟨fun input h => by omega, fun cx rem h => by omega⟩
  | succ m ih =>
    obtain ⟨ihH, ihA⟩ := ih
    constructor
    · intro input hlen h
      simp only [parse_helperF] at h
      cases ht : trimRust input with
      | nil => rw [ht] at h; simp at h
      | cons c rest =>
        rw [ht] at h
        have htl := trimRust_length_le input
        rw [ht] at htl
        simp [List.length_cons] at htl
        by_cases hc : c.toNat ≥ 128
        · simp [hc] at h
        · by_cases hp : c = '('
          · cases hh : parse_helperF m rest with
            | fuel => exact ihH rest (by omega) hh
            | ok p =>
              obtain ⟨first, r1⟩ := p
              have hr1 := ((parseF_consume m).1 rest first r1 hh).1
              cases ha : parseArgsF m first.complexity r1 with
              | fuel => exact ihA first.complexity r1 (by omega) ha
              | ok q =>
                obtain ⟨args, cx, rem⟩ := q
                cases htr : trimRust rem with
                | nil => simp [hc, hp, hh, ha, htr] at h
                | cons d rem3 =>
                  by_cases hd : d.toNat ≥ 128
                  · simp [hc, hp, hh, ha, htr, hd] at h
                  · by_cases hdp : d = ')'
                    · simp [hc, hp, hh, ha, htr, hd, hdp] at h
                    · simp [hc, hp, hh, ha, htr, hd, hdp] at h
              | err m2 => simp [hc, hp, hh, ha] at h
              | panicked => simp [hc, hp, hh, ha] at h
            | err m2 => simp [hc, hp, hh] at h
            | panicked => simp [hc, hp, hh] at h
          · cases hs : scanAtom (c :: rest) with
            | ok p => obtain ⟨item, rem⟩ := p; simp [hc, hp, hs] at h
            | err m2 => simp [hc, hp, hs] at h
            | panicked => simp [hc, hp, hs] at h
            | fuel =>
              rcases scanAtom_cases (c :: rest) with ⟨i2, r2, h2⟩ | h2 <;>
                simp [hs] at h2
    · intro cx rem hlen h
      simp only [parseArgsF] at h
      by_cases he : rem.isEmpty
      · simp [he] at h
      · cases hh : parse_helperF m rem with
        | fuel => exact ihH rem (by omega) hh
        | ok p =>
          obtain ⟨s, tail⟩ := p
          by_cases hb : s.is_blank
          · simp [he, hh, hb] at h
          · have hcons := (parseF_consume m).1 rem s tail hh
            have htl : tail.length < rem.length := hcons.2 (by simpa using hb)
            cases ha : parseArgsF m (Nat.max cx s.complexity) tail with
            | fuel => exact ihA (Nat.max cx s.complexity) tail (by omega) ha
            | ok q =>
              obtain ⟨a2, c3, r3⟩ := q
              simp [he, hh, hb, ha] at h
            | err m2 => simp [he, hh, hb, ha] at h
            | panicked => simp [he, hh, hb, ha] at h
        | err m2 => simp [he, hh] at h
        | panicked => simp [he, hh] at h

/-- `parse_helperF` with any sufficient fuel equals `parse_helper`. -/
theorem parse_helperF_stable_ge {n : Nat} {input : List Char}
    (h : 2 * input.length + 1 ≤ n) :
    parse_helperF n input = parse_helper input :=
  (parseF_mono (2 * input.length + 1)).1 n input h
    ((parseF_nofuel (2 * input.length + 1)).1 input (Nat.le_refl _))

/-- `parseArgsF` with any sufficient fuel equals `parse_args`. -/
theorem parseArgsF_stable_ge {n cx : Nat} {rem : List Char}
    (h : 2 * rem.length + 2 ≤ n) :
    parseArgsF n cx rem = parse_args cx rem :=
  (parseF_mono (2 * rem.length + 2)).2 n cx rem h
    ((parseF_nofuel (2 * rem.length + 2)).2 cx rem (Nat.le_refl _))

/-- `parse_helper` never runs out of fuel. -/
theorem parse_helper_nofuel (input : List Char) : parse_helper input ≠ .fuel :=
  (parseF_nofuel (2 * input.length + 1)).1 input (Nat.le_refl _)

/-- `parse` never runs out of fuel. -/
theorem parse_nofuel (input : List Char) : parse input ≠ .fuel := by
  intro h
  rw [parse] at h
  cases hh : parse_helper input with
  | ok p =>
    obtain ⟨s, tail⟩ := p
    rw [hh] at h
    by_cases ht : tail.isEmpty <;> simp [ht] at h
  | err m => rw [hh] at h; simp at h
  | panicked => rw [hh] at h; simp at h
  | fuel => exact parse_helper_nofuel input hh


/-! ### Parser invariants -/

/-- Whitespace-only input parses to the blank sentinel at once. -/
theorem parse_helperF_blank {n : Nat} {input : List Char}
    (ht : trimRust input = []) :
    parse_helperF (n+1) input = .ok (Sexpr.blank, []) := by
  simp only [parse_helperF]
  rw [ht]

/-- Input whose trimmed form starts with `)` parses to the blank sentinel,
leaving the trimmed input as the remainder. -/
theorem parse_helperF_close {n : Nat} {input y : List Char}
    (ht : trimRust input = ')' :: y) :
    parse_helperF (n+1) input = .ok (Sexpr.blank, ')' :: y) := by
  simp only [parse_helperF]
  rw [ht]
  simp [scanAtom, is_ident, Sexpr.blank]

/-- A blank result characterizes its input: after trimming it is empty or
starts with `)`. -/
theorem parse_blank_input {n : Nat} {input : List Char} {s : Sexpr} {r : List Char}
    (h : parse_helperF n input = .ok (s, r)) (hb : s.is_blank = true) :
    trimRust input = [] ∨ ∃ y, trimRust input = ')' :: y := by
  cases n with
  | zero => simp [parse_helperF] at h
  | succ m =>
    simp only [parse_helperF] at h
    cases ht : trimRust input with
    | nil => exact .inl rfl
    | cons c rest =>
      rw [ht] at h
      right
      by_cases hc : c.toNat ≥ 128
      · simp [hc] at h
      · by_cases hp : c = '('
        · cases hh : parse_helperF m rest with
          | ok p =>
            obtain ⟨first, r1⟩ := p
            cases ha : parseArgsF m first.complexity r1 with
            | ok q =>
              obtain ⟨args, cx, rem⟩ := q
              cases htr : trimRust rem with
              | nil => simp [hc, hp, hh, ha, htr] at h
              | cons d rem3 =>
                by_cases hd : d.toNat ≥ 128
                · simp [hc, hp, hh, ha, htr, hd] at h
                · by_cases hdp : d = ')'
                  · simp [hc, hp, hh, ha, htr, hd, hdp] at h
                    obtain ⟨rfl, rfl⟩ := h
                    simp [Sexpr.is_blank] at hb
                  · simp [hc, hp, hh, ha, htr, hd, hdp] at h
            | err m2 => simp [hc, hp, hh, ha] at h
            | panicked => simp [hc, hp, hh, ha] at h
            | fuel => simp [hc, hp, hh, ha] at h
          | err m2 => simp [hc, hp, hh] at h
          | panicked => simp [hc, hp, hh] at h
          | fuel => simp [hc, hp, hh] at h
        · by_cases hi : is_ident c = true
          · cases hs : scanAtom rest with
            | ok p =>
              obtain ⟨ti, tr⟩ := p
              have : scanAtom (c :: rest) = .ok (c :: ti, tr) := by
                simp [scanAtom, Nat.not_le.mpr (by omega : c.toNat < 128), hi, hs]
              simp [hc, hp, this] at h
              obtain ⟨rfl, rfl⟩ := h
              simp [Sexpr.is_blank] at hb
            | err m2 =>
              have : scanAtom (c :: rest) = .err m2 := by
                simp [scanAtom, Nat.not_le.mpr (by omega : c.toNat < 128), hi, hs]
              simp [hc, hp, this] at h
            | panicked =>
              have : scanAtom (c :: rest) = .panicked := by
                simp [scanAtom, Nat.not_le.mpr (by omega : c.toNat < 128), hi, hs]
              simp [hc, hp, this] at h
            | fuel =>
              rcases scanAtom_cases rest with ⟨i2, r2, h2⟩ | h2 <;> simp [hs] at h2
          · -- the first trimmed character is not `(`, not whitespace, not an
            -- identifier character: it is `)`
            have hws : isRustWhitespace c = false := trimRust_head_not_ws ht
            have hcp : c = ')' := by
              simp [is_ident, hws] at hi
              exact hi hp
            exact ⟨rest, by rw [hcp]⟩

/-- The remainder a blank parse returns: empty, or the trimmed input,
which starts with `)`. -/
theorem parse_blank_rest {n : Nat} {input : List Char} {s : Sexpr} {r : List Char}
    (h : parse_helperF n input = .ok (s, r)) (hb : s.is_blank = true) :
    trimRust r = [] ∨ ∃ y, trimRust r = ')' :: y := by
  cases n with
  | zero => simp [parse_helperF] at h
  | succ m =>
    simp only [parse_helperF] at h
    cases ht : trimRust input with
    | nil =>
      rw [ht] at h
      simp at h
      obtain ⟨-, rfl⟩ := h
      exact .inl rfl
    | cons c rest =>
      rw [ht] at h
      by_cases hc : c.toNat ≥ 128
      · simp [hc] at h
      · by_cases hp : c = '('
        · cases hh : parse_helperF m rest with
          | ok p =>
            obtain ⟨first, r1⟩ := p
            cases ha : parseArgsF m first.complexity r1 with
            | ok q =>
              obtain ⟨args, cx, rem⟩ := q
              cases htr : trimRust rem with
              | nil => simp [hc, hp, hh, ha, htr] at h
              | cons d rem3 =>
                by_cases hd : d.toNat ≥ 128
                · simp [hc, hp, hh, ha, htr, hd] at h
                · by_cases hdp : d = ')'
                  · simp [hc, hp, hh, ha, htr, hd, hdp] at h
                    obtain ⟨rfl, -⟩ := h
                    simp [Sexpr.is_blank] at hb
                  · simp [hc, hp, hh, ha, htr, hd, hdp] at h
            | err m2 => simp [hc, hp, hh, ha] at h
            | panicked => simp [hc, hp, hh, ha] at h
            | fuel => simp [hc, hp, hh, ha] at h
          | err m2 => simp [hc, hp, hh] at h
          | panicked => simp [hc, hp, hh] at h
          | fuel => simp [hc, hp, hh] at h
        · by_cases hi : is_ident c = true
          · cases hs : scanAtom rest with
            | ok p =>
              obtain ⟨ti, tr⟩ := p
              have hsc : scanAtom (c :: rest) = .ok (c :: ti, tr) := by
                simp [scanAtom, Nat.not_le.mpr (by omega : c.toNat < 128), hi, hs]
              simp [hc, hp, hsc] at h
              obtain ⟨rfl, -⟩ := h
              simp [Sexpr.is_blank] at hb
            | err m2 =>
              have hsc : scanAtom (c :: rest) = .err m2 := by
                simp [scanAtom, Nat.not_le.mpr (by omega : c.toNat < 128), hi, hs]
              simp [hc, hp, hsc] at h
            | panicked =>
              have hsc : scanAtom (c :: rest) = .panicked := by
                simp [scanAtom, Nat.not_le.mpr (by omega : c.toNat < 128), hi, hs]
              simp [hc, hp, hsc] at h
            | fuel =>
              rcases scanAtom_cases rest with ⟨i2, r2, h2⟩ | h2 <;> simp [hs] at h2
          · have hws : isRustWhitespace c = false := trimRust_head_not_ws ht
            have hcp : c = ')' := by
              simp [is_ident, hws] at hi
              exact hi hp
            have hsc : scanAtom (c :: rest) = .ok ([], c :: rest) := by
              simp [scanAtom, Nat.not_le.mpr (by omega : c.toNat < 128), hi]
            simp [hc, hp, hsc] at h
            obtain ⟨-, rfl⟩ := h
            right
            refine ⟨rest, ?_⟩
            have hidem := trimRust_idem input
            rw [ht] at hidem
            rw [hidem, hcp]

/-- On a remainder that is whitespace-empty or starts with `)`, the
argument loop collects nothing. -/
theorem parseArgs_blank_head {n cx : Nat} {rem : List Char} {l : SexprList}
    {cx2 : Nat} {r2 : List Char}
    (h : parseArgsF n cx rem = .ok (l, cx2, r2))
    (ht : trimRust rem = [] ∨ ∃ y, trimRust rem = ')' :: y) :
    l = .nil := by
  cases n with
  | zero => simp [parseArgsF] at h
  | succ k =>
    simp only [parseArgsF] at h
    by_cases he : rem.isEmpty
    · simp [he] at h
      exact h.1.symm
    · cases k with
      | zero => simp [he, parse_helperF] at h
      | succ j =>
        rcases ht with ht | ⟨y, ht⟩
        · rw [parse_helperF_blank ht] at h
          simp [he, Sexpr.blank, Sexpr.is_blank] at h
          exact h.1.symm
        · rw [parse_helperF_close ht] at h
          simp [he, Sexpr.blank, Sexpr.is_blank] at h
          exact h.1.symm

/-- The "found something else" branch is unreachable: the argument loop
only stops where the trimmed remainder is empty or starts with `)`. -/
theorem parseF_no_malformed : ∀ n : Nat,
    (∀ input, parse_helperF n input ≠ .err MalformedCompound) ∧
    (∀ cx rem, parseArgsF n cx rem ≠ .err MalformedCompound) ∧
    (∀ cx rem l cx2 r2, parseArgsF n cx rem = .ok (l, cx2, r2) →
      trimRust r2 = [] ∨ ∃ y, trimRust r2 = ')' :: y) := by
  intro n
  induction n with
  | zero =>
    exact ⟨fun input h => by simp [parse_helperF] at h,
           fun cx rem h => by simp [parseArgsF] at h,
           fun cx rem l cx2 r2 h => by simp [parseArgsF] at h⟩
  | succ m ih =>
    obtain ⟨ihH, ihA, ihP⟩ := ih
    refine ⟨?_, ?_, ?_⟩
    · intro input h
      simp only [parse_helperF] at h
      cases ht : trimRust input with
      | nil => rw [ht] at h; simp at h
      | cons c rest =>
        rw [ht] at h
        by_cases hc : c.toNat ≥ 128
        · simp [hc] at h
        · by_cases hp : c = '('
          · cases hh : parse_helperF m rest with
            | ok p =>
              obtain ⟨first, r1⟩ := p
              cases ha : parseArgsF m first.complexity r1 with
              | ok q =>
                obtain ⟨args, cx, rem⟩ := q
                rcases ihP first.complexity r1 args cx rem ha with hpost | ⟨y, hpost⟩
                · simp [hc, hp, hh, ha, hpost] at h
                  exact absurd h.symm (by decide)
                · simp [hc, hp, hh, ha, hpost] at h
              | err m2 =>
                simp [hc, hp, hh, ha] at h
                rw [h] at ha
                exact ihA first.complexity r1 ha
              | panicked => simp [hc, hp, hh, ha] at h
              | fuel => simp [hc, hp, hh, ha] at h
            | err m2 =>
              simp [hc, hp, hh] at h
              rw [h] at hh
              exact ihH rest hh
            | panicked => simp [hc, hp, hh] at h
            | fuel => simp [hc, hp, hh] at h
          · cases hs : scanAtom (c :: rest) with
            | ok p => obtain ⟨item, rem⟩ := p; simp [hc, hp, hs] at h
            | err m2 =>
              rcases scanAtom_cases (c :: rest) with ⟨i2, r2, h2⟩ | h2 <;>
                simp [hs] at h2
            | panicked => simp [hc, hp, hs] at h
            | fuel =>
              rcases scanAtom_cases (c :: rest) with ⟨i2, r2, h2⟩ | h2 <;>
                simp [hs] at h2
    · intro cx rem h
      simp only [parseArgsF] at h
      by_cases he : rem.isEmpty
      · simp [he] at h
      · cases hh : parse_helperF m rem with
        | ok p =>
          obtain ⟨s, tail⟩ := p
          by_cases hb : s.is_blank
          · simp [he, hh, hb] at h
          · cases ha : parseArgsF m (Nat.max cx s.complexity) tail with
            | ok q => obtain ⟨a2, c3, r3⟩ := q; simp [he, hh, hb, ha] at h
            | err m2 =>
              simp [he, hh, hb, ha] at h
              rw [h] at ha
              exact ihA (Nat.max cx s.complexity) tail ha
            | panicked => simp [he, hh, hb, ha] at h
            | fuel => simp [he, hh, hb, ha] at h
        | err m2 =>
          simp [he, hh] at h
          rw [h] at hh
          exact ihH rem hh
        | panicked => simp [he, hh] at h
        | fuel => simp [he, hh] at h
    · intro cx rem l cx2 r2 h
      simp only [parseArgsF] at h
      by_cases he : rem.isEmpty
      · simp [he] at h
        obtain ⟨-, -, rfl⟩ := h
        left
        have : rem = [] := by simpa [List.isEmpty_iff] using he
        rw [this]; rfl
      · cases hh : parse_helperF m rem with
        | ok p =>
          obtain ⟨s, tail⟩ := p
          by_cases hb : s.is_blank
          · simp [he, hh, hb] at h
            obtain ⟨-, -, rfl⟩ := h
            exact parse_blank_input hh hb
          · cases ha : parseArgsF m (Nat.max cx s.complexity) tail with
            | ok q =>
              obtain ⟨a2, c3, r3⟩ := q
              simp [he, hh, hb, ha] at h
              obtain ⟨-, -, rfl⟩ := h
              exact ihP (Nat.max cx s.complexity) tail a2 c3 r3 ha
            | err m2 => simp [he, hh, hb, ha] at h
            | panicked => simp [he, hh, hb, ha] at h
            | fuel => simp [he, hh, hb, ha] at h
        | err m2 => simp [he, hh] at h
        | panicked => simp [he, hh] at h
        | fuel => simp [he, hh] at h

/-- C10: parse never returns the error "malformed sexpr: expected `)`,
found something else": the argument-collecting loop stops only when the
sub-parse yields blank (next non-whitespace character is `)`) or when
input is exhausted, so after the loop the trimmed remainder is always
either empty or begins with `)`, making that error branch unreachable —
in `parse_helper` and hence in `parse`. -/
theorem claim_C10_no_malformed_error (input : List Char) :
    parse input ≠ .err MalformedCompound ∧
    parse_helper input ≠ .err MalformedCompound := by
  have hH := (parseF_no_malformed (2 * input.length + 1)).1 input
  refine ⟨?_, hH⟩
  intro h
  rw [parse] at h
  cases hh : parse_helper input with
  | ok p =>
    obtain ⟨s, tail⟩ := p
    rw [hh] at h
    by_cases ht : tail.isEmpty
    · simp [ht] at h
    · simp [ht] at h
      exact absurd h (by decide)
  | err m2 =>
    rw [hh] at h
    simp at h
    rw [h] at hh
    exact hH hh
  | panicked => rw [hh] at h; simp at h
  | fuel => rw [hh] at h; simp at h


/-- Trimming preserves ASCII-ness. -/
theorem allAscii_trim {l : List Char} (h : allAscii l = true) :
    allAscii (trimRust l) = true := by
  simp only [allAscii, List.all_eq_true] at h ⊢
  intro c hc
  apply h
  unfold trimRust at hc
  rw [List.mem_reverse] at hc
  have hc2 := (List.dropWhile_sublist _).subset hc
  rw [List.mem_reverse] at hc2
  exact (List.dropWhile_sublist _).subset hc2

/-- A tail of an ASCII list is ASCII. -/
theorem allAscii_tail {c : Char} {l : List Char} (h : allAscii (c :: l) = true) :
    c.toNat < 128 ∧ allAscii l = true := by
  simpa [allAscii, List.all_cons] using h

/-- On ASCII input the parser never panics, and every remainder it
returns is ASCII again. -/
theorem parseF_ascii : ∀ n : Nat,
    (∀ input, allAscii input = true →
      parse_helperF n input ≠ .panicked ∧
      ∀ s r, parse_helperF n input = .ok (s, r) → allAscii r = true) ∧
    (∀ cx rem, allAscii rem = true →
      parseArgsF n cx rem ≠ .panicked ∧
      ∀ l cx2 r2, parseArgsF n cx rem = .ok (l, cx2, r2) → allAscii r2 = true) := by
  intro n
  induction n with
  | zero =>
    constructor
    · intro input _
      exact ⟨by simp [parse_helperF], fun s r h => by simp [parse_helperF] at h⟩
    · intro cx rem _
      exact ⟨by simp [parseArgsF], fun l cx2 r2 h => by simp [parseArgsF] at h⟩
  | succ m ih =>
    obtain ⟨ihH, ihA⟩ := ih
    constructor
    · intro input hin
      have htr := allAscii_trim hin
      cases ht : trimRust input with
      | nil =>
        rw [parse_helperF_blank ht]
        exact ⟨by simp, fun s r h => by
          simp at h
          obtain ⟨-, rfl⟩ := h
          rfl⟩
      | cons c rest =>
        rw [ht] at htr
        obtain ⟨hcA, hrestA⟩ := allAscii_tail htr
        constructor
        · intro h
          simp only [parse_helperF] at h
          rw [ht] at h
          by_cases hp : c = '('
          · simp only [Nat.not_le.mpr hcA, hp] at h
            cases hh : parse_helperF m rest with
            | ok p =>
              obtain ⟨first, r1⟩ := p
              have hr1A := (ihH rest hrestA).2 first r1 hh
              cases ha : parseArgsF m first.complexity r1 with
              | ok q =>
                obtain ⟨args, cx, rem⟩ := q
                have hremA := (ihA first.complexity r1 hr1A).2 args cx rem ha
                have htremA := allAscii_trim hremA
                cases htrr : trimRust rem with
                | nil => simp [hh, ha, htrr] at h
                | cons d rem3 =>
                  rw [htrr] at htremA
                  obtain ⟨hdA, -⟩ := allAscii_tail htremA
                  by_cases hdp : d = ')'
                  · simp [hh, ha, htrr, Nat.not_le.mpr hdA, hdp] at h
                  · simp [hh, ha, htrr, Nat.not_le.mpr hdA, hdp] at h
              | err m2 => simp [hh, ha] at h
              | panicked => exact (ihA first.complexity r1 hr1A).1 ha
              | fuel => simp [hh, ha] at h
            | err m2 => simp [hh] at h
            | panicked => exact (ihH rest hrestA).1 hh
            | fuel => simp [hh] at h
          · simp only [Nat.not_le.mpr hcA, hp] at h
            cases hs : scanAtom (c :: rest) with
            | ok p => obtain ⟨item, rem⟩ := p; simp [hs] at h
            | err m2 => simp [hs] at h
            | panicked => exact (scanAtom_ascii htr).1 hs
            | fuel =>
              rcases scanAtom_cases (c :: rest) with ⟨i2, r2, h2⟩ | h2 <;>
                simp [hs] at h2
        · intro s r h
          simp only [parse_helperF] at h
          rw [ht] at h
          by_cases hp : c = '('
          · simp only [Nat.not_le.mpr hcA, hp] at h
            cases hh : parse_helperF m rest with
            | ok p =>
              obtain ⟨first, r1⟩ := p
              have hr1A := (ihH rest hrestA).2 first r1 hh
              cases ha : parseArgsF m first.complexity r1 with
              | ok q =>
                obtain ⟨args, cx, rem⟩ := q
                have hremA := (ihA first.complexity r1 hr1A).2 args cx rem ha
                have htremA := allAscii_trim hremA
                cases htrr : trimRust rem with
                | nil => simp [hh, ha, htrr] at h
                | cons d rem3 =>
                  rw [htrr] at htremA
                  obtain ⟨hdA, hrem3A⟩ := allAscii_tail htremA
                  by_cases hdp : d = ')'
                  · simp [hh, ha, htrr, Nat.not_le.mpr hdA, hdp] at h
                    obtain ⟨-, rfl⟩ := h
                    exact hrem3A
                  · simp [hh, ha, htrr, Nat.not_le.mpr hdA, hdp] at h
              | err m2 => simp [hh, ha] at h
              | panicked => simp [hh, ha] at h
              | fuel => simp [hh, ha] at h
            | err m2 => simp [hh] at h
            | panicked => simp [hh] at h
            | fuel => simp [hh] at h
          · simp only [Nat.not_le.mpr hcA, hp] at h
            cases hs : scanAtom (c :: rest) with
            | ok p =>
              obtain ⟨item, rem⟩ := p
              simp [hs] at h
              obtain ⟨-, rfl⟩ := h
              exact (scanAtom_ascii htr).2 item _ hs
            | err m2 => simp [hs] at h
            | panicked => simp [hs] at h
            | fuel => simp [hs] at h
    · intro cx rem hremA
      constructor
      · intro h
        simp only [parseArgsF] at h
        by_cases he : rem.isEmpty
        · simp [he] at h
        · cases hh : parse_helperF m rem with
          | ok p =>
            obtain ⟨s, tail⟩ := p
            have htailA := (ihH rem hremA).2 s tail hh
            by_cases hb : s.is_blank
            · simp [he, hh, hb] at h
            · cases ha : parseArgsF m (Nat.max cx s.complexity) tail with
              | ok q => obtain ⟨a2, c3, r3⟩ := q; simp [he, hh, hb, ha] at h
              | err m2 => simp [he, hh, hb, ha] at h
              | panicked => exact (ihA (Nat.max cx s.complexity) tail htailA).1 ha
              | fuel => simp [he, hh, hb, ha] at h
          | err m2 => simp [he, hh] at h
          | panicked => exact (ihH rem hremA).1 hh
          | fuel => simp [he, hh] at h
      · intro l cx2 r2 h
        simp only [parseArgsF] at h
        by_cases he : rem.isEmpty
        · simp [he] at h
          obtain ⟨-, -, rfl⟩ := h
          exact hremA
        · cases hh : parse_helperF m rem with
          | ok p =>
            obtain ⟨s, tail⟩ := p
            have htailA := (ihH rem hremA).2 s tail hh
            by_cases hb : s.is_blank
            · simp [he, hh, hb] at h
              obtain ⟨-, -, rfl⟩ := h
              exact hremA
            · cases ha : parseArgsF m (Nat.max cx s.complexity) tail with
              | ok q =>
                obtain ⟨a2, c3, r3⟩ := q
                simp [he, hh, hb, ha] at h
                obtain ⟨-, -, rfl⟩ := h
                exact (ihA (Nat.max cx s.complexity) tail htailA).2 a2 c3 r3 ha
              | err m2 => simp [he, hh, hb, ha] at h
              | panicked => simp [he, hh, hb, ha] at h
              | fuel => simp [he, hh, hb, ha] at h
          | err m2 => simp [he, hh] at h
          | panicked => simp [he, hh] at h
          | fuel => simp [he, hh] at h

/-- C8 amended: for every ASCII input string, parse terminates normally
and returns either a tree or a ParseError value — never a panic.  (On
non-ASCII UTF-8 input the byte slicing can panic, see the
counterexample.) -/
theorem claim_C8_amended (input : List Char) (h : allAscii input = true) :
    (∃ t, parse input = .ok t) ∨ (∃ m, parse input = .err m) := by
  have hnp := ((parseF_ascii (2 * input.length + 1)).1 input h).1
  have hnf := parse_helper_nofuel input
  rw [parse]
  cases hh : parse_helper input with
  | ok p =>
    obtain ⟨s, tail⟩ := p
    by_cases ht : tail.isEmpty
    · exact .inl ⟨s, by simp [ht]⟩
    · exact .inr ⟨UnclosedInput, by simp [ht]⟩
  | err m2 => exact .inr ⟨m2, by simp⟩
  | panicked => exact absurd hh hnp
  | fuel => exact absurd hh hnf

/-- C8 witness: the amended statement applied to the ASCII input "(x)". -/
theorem claim_C8_witness :
    allAscii "(x)".data = true ∧
    ((∃ t, parse "(x)".data = .ok t) ∨ (∃ m, parse "(x)".data = .err m)) :=
  ⟨by decide, claim_C8_amended "(x)".data (by decide)⟩


/-- Every tree the parser returns is wellformed, and the argument loop's
accumulator is the running maximum of the cached complexities. -/
theorem parseF_wf : ∀ n : Nat,
    (∀ input s r, parse_helperF n input = .ok (s, r) → wfS s = true) ∧
    (∀ cx rem l cx2 r2, parseArgsF n cx rem = .ok (l, cx2, r2) →
      wfL l = true ∧ cx2 = maxCached cx l) := by
  intro n
  induction n with
  | zero =>
    exact ⟨fun input s r h => by simp [parse_helperF] at h,
           fun cx rem l cx2 r2 h => by simp [parseArgsF] at h⟩
  | succ m ih =>
    obtain ⟨ihH, ihA⟩ := ih
    constructor
    · intro input s r h
      simp only [parse_helperF] at h
      cases ht : trimRust input with
      | nil =>
        rw [ht] at h
        simp at h
        obtain ⟨rfl, -⟩ := h
        rfl
      | cons c rest =>
        rw [ht] at h
        by_cases hc : c.toNat ≥ 128
        · simp [hc] at h
        · by_cases hp : c = '('
          · cases hh : parse_helperF m rest with
            | ok p =>
              obtain ⟨first, r1⟩ := p
              cases ha : parseArgsF m first.complexity r1 with
              | ok q =>
                obtain ⟨args, cx, rem⟩ := q
                cases htr : trimRust rem with
                | nil => simp [hc, hp, hh, ha, htr] at h
                | cons d rem3 =>
                  by_cases hd : d.toNat ≥ 128
                  · simp [hc, hp, hh, ha, htr, hd] at h
                  · by_cases hdp : d = ')'
                    · simp [hc, hp, hh, ha, htr, hd, hdp] at h
                      obtain ⟨rfl, -⟩ := h
                      have hwfh := ihH rest first r1 hh
                      have hargs := ihA first.complexity r1 args cx rem ha
                      have hblank : (!first.is_blank || isNilL args) = true := by
                        by_cases hb : first.is_blank
                        · have hnil : args = .nil :=
                            parseArgs_blank_head ha (parse_blank_rest hh hb)
                          rw [hnil]
                          simp [isNilL]
                        · simp [hb]
                      simp [wfS, hwfh, hargs.1, hblank, hargs.2]
                    · simp [hc, hp, hh, ha, htr, hd, hdp] at h
              | err m2 => simp [hc, hp, hh, ha] at h
              | panicked => simp [hc, hp, hh, ha] at h
              | fuel => simp [hc, hp, hh, ha] at h
            | err m2 => simp [hc, hp, hh] at h
            | panicked => simp [hc, hp, hh] at h
            | fuel => simp [hc, hp, hh] at h
          · cases hs : scanAtom (c :: rest) with
            | ok p =>
              obtain ⟨item, rem⟩ := p
              simp [hc, hp, hs] at h
              obtain ⟨rfl, -⟩ := h
              simp [wfS, scanAtom_item_wf hs]
            | err m2 => simp [hc, hp, hs] at h
            | panicked => simp [hc, hp, hs] at h
            | fuel => simp [hc, hp, hs] at h
    · intro cx rem l cx2 r2 h
      simp only [parseArgsF] at h
      by_cases he : rem.isEmpty
      · simp [he] at h
        obtain ⟨rfl, rfl, -⟩ := h
        exact ⟨rfl, rfl⟩
      · cases hh : parse_helperF m rem with
        | ok p =>
          obtain ⟨s, tail⟩ := p
          by_cases hb : s.is_blank
          · simp [he, hh, hb] at h
            obtain ⟨rfl, rfl, -⟩ := h
            exact ⟨rfl, rfl⟩
          · cases ha : parseArgsF m (Nat.max cx s.complexity) tail with
            | ok q =>
              obtain ⟨a2, c3, r3⟩ := q
              simp [he, hh, hb, ha] at h
              obtain ⟨rfl, rfl, -⟩ := h
              have hwfs := ihH rem s tail hh
              have hrec := ihA (Nat.max cx s.complexity) tail a2 c3 r3 ha
              refine ⟨?_, ?_⟩
              · simp [wfL, hwfs, hrec.1, (by simpa using hb : s.is_blank = false)]
              · simp [maxCached, hrec.2]
            | err m2 => simp [he, hh, hb, ha] at h
            | panicked => simp [he, hh, hb, ha] at h
            | fuel => simp [he, hh, hb, ha] at h
        | err m2 => simp [he, hh] at h
        | panicked => simp [he, hh] at h
        | fuel => simp [he, hh] at h

/-- `wfS` for the tree `parse` returns. -/
theorem parse_wf {input : List Char} {t : Sexpr} (h : parse input = .ok t) :
    wfS t = true := by
  rw [parse] at h
  cases hh : parse_helper input with
  | ok p =>
    obtain ⟨s, tail⟩ := p
    rw [hh] at h
    by_cases ht : tail.isEmpty
    · simp [ht] at h
      rw [← h]
      exact (parseF_wf (2 * input.length + 1)).1 input s tail hh
    · simp [ht] at h
  | err m2 => rw [hh] at h; simp at h
  | panicked => rw [hh] at h; simp at h
  | fuel => rw [hh] at h; simp at h

/-- The accumulator is a lower bound of `refFold`. -/
theorem refFold_ge_acc : ∀ (l : SexprList) (acc : Nat), acc ≤ refFold acc l
  | .nil, acc => Nat.le_refl acc
  | .cons a t, acc => by
    rw [refFold]
    exact Nat.le_trans (Nat.le_max_left acc (refComplexity a))
      (refFold_ge_acc t (Nat.max acc (refComplexity a)))

mutual
/-- In a wellformed tree whose reference complexity stays below 2^32 the
cached complexity agrees with the reference definition at every node. -/
theorem cached_eq_ref : ∀ (t : Sexpr), wfS t = true → refComplexity t < u32Mod →
    complexityConsistent t = true ∧ t.complexity = refComplexity t
  | .atom text n, hwf, _ => by
    simp only [wfS, Bool.and_eq_true, beq_iff_eq] at hwf
    simp [complexityConsistent, Sexpr.complexity, refComplexity, hwf.2]
  | .compound h args n, hwf, hlt => by
    simp only [wfS, Bool.and_eq_true, beq_iff_eq] at hwf
    obtain ⟨⟨⟨hwh, hwl⟩, hbl⟩, hn⟩ := hwf
    have hlt2 : 1 + refFold (refComplexity h) args < u32Mod := by
      simpa [refComplexity] using hlt
    have hrefh : refComplexity h < u32Mod := by
      have h1 := refFold_ge_acc args (refComplexity h)
      omega
    have ihh := cached_eq_ref h hwh hrefh
    have ihl := cachedList_eq_ref args (refComplexity h) hwl (by omega)
    have hmax : maxCached h.complexity args = refFold (refComplexity h) args := by
      rw [ihh.2]
      exact ihl.2
    have hnval : n = 1 + refFold (refComplexity h) args := by
      rw [hn, hmax, Nat.mod_eq_of_lt (by omega), Nat.add_comm]
    constructor
    · simp [complexityConsistent, ihh.1, ihl.1, hnval]
    · simp [Sexpr.complexity, refComplexity, hnval]
theorem cachedList_eq_ref : ∀ (l : SexprList) (acc : Nat), wfL l = true →
    refFold acc l < u32Mod →
    consistentList l = true ∧ maxCached acc l = refFold acc l
  | .nil, acc, _, _ => ⟨rfl, rfl⟩
  | .cons a t, acc, hwl, hlt => by
    simp only [wfL, Bool.and_eq_true] at hwl
    obtain ⟨⟨hnb, hwa⟩, hwt⟩ := hwl
    rw [refFold] at hlt
    have hrefa : refComplexity a < u32Mod := by
      have h1 := refFold_ge_acc t (Nat.max acc (refComplexity a))
      have h2 : refComplexity a ≤ Nat.max acc (refComplexity a) :=
        Nat.le_max_right acc (refComplexity a)
      omega
    have iha := cached_eq_ref a hwa hrefa
    have iht := cachedList_eq_ref t (Nat.max acc (refComplexity a)) hwt hlt
    constructor
    · simp [consistentList, iha.1, iht.1]
    · rw [maxCached, iha.2, refFold, iht.2]
end

/-- C1: for every node of a tree produced by a successful parse, the
cached complexity equals the spec's reference definition — an atom has
complexity 0, a compound 1 + max(complexity of head, complexity of each
argument) — provided the reference complexity fits in a `u32` (the cache
is computed in wrapping 32-bit arithmetic, so nesting beyond 2^32, which
needs a ≥ 4 GiB input, would wrap). -/
theorem claim_C1_complexity_cache (input : List Char) (t : Sexpr)
    (h : parse input = .ok t) (hbound : refComplexity t < u32Mod) :
    complexityConsistent t = true :=
  (cached_eq_ref t (parse_wf h) hbound).1

/-- C1 witness: the theorem applied to the parse of "(a (b c))". -/
theorem claim_C1_witness :
    parse "(a (b c))".data = .ok treeABC ∧ refComplexity treeABC < u32Mod ∧
    complexityConsistent treeABC = true :=
  ⟨rfl, by decide,
    claim_C1_complexity_cache "(a (b c))".data treeABC rfl (by decide)⟩

mutual
/-- Wellformedness implies the no-blank-argument invariant. -/
theorem wfS_argsBlankFree : ∀ (t : Sexpr), wfS t = true → argsBlankFree t = true
  | .atom _ _, _ => rfl
  | .compound h args n, hwf => by
    simp only [wfS, Bool.and_eq_true] at hwf
    obtain ⟨⟨⟨hwh, hwl⟩, -⟩, -⟩ := hwf
    simp [argsBlankFree, wfS_argsBlankFree h hwh, wfL_argsBlankFree args hwl]
theorem wfL_argsBlankFree : ∀ (l : SexprList), wfL l = true →
    argsBlankFreeList l = true
  | .nil, _ => rfl
  | .cons a t, hwl => by
    simp only [wfL, Bool.and_eq_true] at hwl
    obtain ⟨⟨hnb, hwa⟩, hwt⟩ := hwl
    simp [argsBlankFreeList, hnb, wfS_argsBlankFree a hwa, wfL_argsBlankFree t hwt]
end

/-- C9 amended: for every input on which parse succeeds, the blank
sentinel never occurs among any compound's arguments anywhere in the
returned tree; and parse of empty or whitespace-only input returns the
bare blank node itself.  (The sentinel can, however, occur in head
position — see the counterexample.) -/
theorem claim_C9_amended (input : List Char) (t : Sexpr)
    (h : parse input = .ok t) :
    argsBlankFree t = true ∧ (trimRust input = [] → t = Sexpr.blank) := by
  refine ⟨wfS_argsBlankFree t (parse_wf h), fun ht => ?_⟩
  rw [parse] at h
  have hblank : parse_helper input = .ok (Sexpr.blank, []) :=
    parse_helperF_blank ht
  rw [hblank] at h
  simp at h
  exact h.symm

/-- C9 witness: the amended statement applied to the parse of "()". -/
theorem claim_C9_witness :
    parse "()".data = .ok (.compound Sexpr.blank .nil 1) ∧
    argsBlankFree (.compound Sexpr.blank .nil 1) = true :=
  ⟨rfl, (claim_C9_amended "()".data (.compound Sexpr.blank .nil 1) rfl).1⟩


/-! ### Round-trip infrastructure -/

/-- A list on which an atom scan would stop immediately: empty, or led by
an ASCII non-identifier character. -/
def stopper : List Char → Bool
  | [] => true
  | c :: _ => decide (c.toNat < 128) && !(is_ident c)

/-- `stopper` in the form `scanAtom_exact` consumes. -/
theorem stopper_spec {r : List Char} (h : stopper r = true) :
    r = [] ∨ ∃ c y, r = c :: y ∧ c.toNat < 128 ∧ is_ident c = false := by
  cases r with
  | nil => exact .inl rfl
  | cons c y =>
    simp only [stopper, Bool.and_eq_true, decide_eq_true_eq, Bool.not_eq_true'] at h
    exact .inr ⟨c, y, rfl, h.1, h.2⟩

/-- An identifier character is not whitespace. -/
theorem is_ident_not_ws {c : Char} (h : is_ident c = true) :
    isRustWhitespace c = false := by
  simp only [is_ident, Bool.and_eq_true, Bool.not_eq_true'] at h
  exact h.2

/-- An identifier character is not `(`. -/
theorem is_ident_ne_open {c : Char} (h : is_ident c = true) : c ≠ '(' := by
  simp only [is_ident, Bool.and_eq_true, bne_iff_ne] at h
  exact h.1.1

/-- A blank wellformed tree is the blank sentinel itself. -/
theorem blank_wf_eq {t : Sexpr} (hb : t.is_blank = true) (hw : wfS t = true) :
    t = Sexpr.blank := by
  cases t with
  | atom text n =>
    simp only [Sexpr.is_blank, List.isEmpty_iff] at hb
    simp only [wfS, Bool.and_eq_true, beq_iff_eq] at hw
    rw [Sexpr.blank, hb, hw.2]
  | compound h args n => simp [Sexpr.is_blank] at hb

/-- A compound's rendering opens with `(`. -/
theorem write_compound_head (h : Sexpr) (as : SexprList) (n : Nat)
    (cfg : FormatArgs) :
    ∃ z, write_helper (.compound h as n) cfg = '(' :: z := by
  cases as with
  | nil =>
    by_cases hq : ((cfg.short_quantifiers && h.is_named "forall".data)
        || h.is_named "exists".data) = true
    · rw [write_helper.eq_3, if_pos hq]
      exact ⟨_, rfl⟩
    · rw [write_helper.eq_3, if_neg hq]
      exact ⟨_, rfl⟩
  | cons first rest =>
    by_cases hq : ((cfg.short_quantifiers && h.is_named "forall".data)
        || h.is_named "exists".data) = true
    · rw [write_helper.eq_2, if_pos hq]
      exact ⟨_, rfl⟩
    · rw [write_helper.eq_2, if_neg hq]
      exact ⟨_, rfl⟩

/-- A nonblank tree renders to a nonempty string. -/
theorem write_nonempty (t : Sexpr) (cfg : FormatArgs)
    (hb : t.is_blank = false) : write_helper t cfg ≠ [] := by
  cases t with
  | atom text n =>
    simp only [Sexpr.is_blank] at hb
    simpa [write_helper] using by simpa [List.isEmpty_iff] using
      (by simp [hb] : text.isEmpty = false)
  | compound h args n =>
    obtain ⟨z, hz⟩ := write_compound_head h args n cfg
    rw [hz]
    simp

/-- A list of non-whitespace characters keeps its tail under `trimEnd`. -/
theorem trimEnd_of_all_not_ws {l : List Char}
    (h : ∀ c ∈ l, isRustWhitespace c = false) : trimEnd l = l := by
  obtain ⟨w, hw, hwall⟩ := trimEnd_decomp l
  cases w with
  | nil =>
    rw [List.append_nil] at hw
    exact hw.symm
  | cons a wt =>
    have ha : a ∈ l := by rw [hw]; simp
    have h1 := h a ha
    simp only [List.all_cons, Bool.and_eq_true] at hwall
    rw [h1] at hwall
    simp at hwall

/-- Prepending `)` preserves the absence of trailing whitespace. -/
theorem trimEnd_close {r : List Char} (hr : trimEnd r = r) :
    trimEnd (')' :: r) = ')' :: r := by
  cases r with
  | nil => exact trimEnd_single (by decide)
  | cons a y =>
    exact trimEnd_append (x := [')']) hr (by simp)

/-- Space characters are whitespace. -/
theorem replicate_space_ws (d : Nat) :
    (List.replicate d ' ').all isRustWhitespace = true := by
  simp only [List.all_eq_true]
  intro c hc
  rw [List.eq_of_mem_replicate hc]
  decide

/-- `parse_helper` ignores a whitespace-only prefix. -/
theorem parse_helper_ws_prepend {w y : List Char}
    (hw : w.all isRustWhitespace = true) :
    parse_helper (w ++ y) = parse_helper y := by
  rw [parse_helper, parse_helper,
    parse_helperF_trim _ (w ++ y), trimRust_ws_prepend hw,
    parse_helperF_trim _ y]
  have h1 : 2 * (trimRust y).length + 1 ≤ 2 * (w ++ y).length + 1 := by
    have := trimRust_length_le y
    have h2 : y.length ≤ (w ++ y).length := by simp
    omega
  have h2 : 2 * (trimRust y).length + 1 ≤ 2 * y.length + 1 := by
    have := trimRust_length_le y
    omega
  rw [parse_helperF_stable_ge h1, parse_helperF_stable_ge h2]


/-- Whitespace is never an identifier character. -/
theorem ws_not_ident {c : Char} (h : isRustWhitespace c = true) :
    is_ident c = false := by
  simp [is_ident, h]

/-- A whitespace-only ASCII chunk preserves a stopper. -/
theorem stopper_ws_append {w X : List Char}
    (hws : w.all isRustWhitespace = true)
    (hascii : w.all (fun c => decide (c.toNat < 128)) = true)
    (hX : stopper X = true) : stopper (w ++ X) = true := by
  cases w with
  | nil => simpa using hX
  | cons a y =>
    simp only [List.all_cons, Bool.and_eq_true, decide_eq_true_eq] at hws hascii
    simp [stopper, hascii.1, ws_not_ident hws.1]

/-- A closing parenthesis is a stopper. -/
theorem stopper_close (r : List Char) : stopper (')' :: r) = true := rfl

/-- The rendering of an argument list starts with the separator (or is
empty), so it preserves a stopper. -/
theorem stopper_write_rest (l : SexprList) (sep pre X : List Char)
    (cfgEl : FormatArgs) (hsne : sep ≠ [])
    (hws : (sep ++ pre).all isRustWhitespace = true)
    (hascii : (sep ++ pre).all (fun c => decide (c.toNat < 128)) = true)
    (hX : stopper X = true) :
    stopper (write_rest l sep pre cfgEl ++ X) = true := by
  cases l with
  | nil => simpa [write_rest] using hX
  | cons a t =>
    rw [write_rest]
    cases sep with
    | nil => exact absurd rfl hsne
    | cons c s' =>
      simp only [List.cons_append, List.all_cons, Bool.and_eq_true,
        decide_eq_true_eq] at hws hascii
      simp [stopper, hascii.1, ws_not_ident hws.1]

/-- Trimming a whitespace chunk before a closing parenthesis. -/
theorem trimRust_close {r : List Char} (hr : trimEnd r = r) :
    trimRust (')' :: r) = ')' :: r := by
  rw [trimRust_eq_trimEnd_trimStart, trimStart_cons_not_ws (by decide),
    trimEnd_close hr]

/-- Trimming whitespace followed by `)`. -/
theorem trimRust_ws_close {w r : List Char}
    (hws : w.all isRustWhitespace = true) (hr : trimEnd r = r) :
    trimRust (w ++ ')' :: r) = ')' :: r := by
  rw [trimRust_ws_prepend hws, trimRust_close hr]

/-- Parsing whitespace followed by `)` yields the blank sentinel with the
closing parenthesis as remainder. -/
theorem parse_helper_blankarg {w r : List Char}
    (hws : w.all isRustWhitespace = true) (hrEnd : trimEnd r = r) :
    parse_helper (w ++ ')' :: r) = .ok (Sexpr.blank, ')' :: r) := by
  rw [parse_helper_ws_prepend hws, parse_helper]
  exact parse_helperF_close (trimRust_close hrEnd)

/-- One unfolding of `parse_helper` on input opening with `(`. -/
theorem parse_helper_open (TAIL : List Char) (hEnd : trimEnd TAIL = TAIL) :
    parse_helper ('(' :: TAIL) =
      match parse_helper TAIL with
      | .ok (first, r1) =>
        (match parseArgsF (2 * (TAIL.length + 1)) first.complexity r1 with
         | .ok (args, cx, rem) =>
           (match trimRust rem with
            | [] => .err UnterminatedCompound
            | d :: rem3 =>
              if d.toNat ≥ 128 then .panicked
              else if d = ')' then
                .ok (.compound first args ((cx + 1) % u32Mod), rem3)
              else .err MalformedCompound)
         | .err m => .err m
         | .panicked => .panicked
         | .fuel => .fuel)
      | .err m => .err m
      | .panicked => .panicked
      | .fuel => .fuel := by
  have htr : trimRust ('(' :: TAIL) = '(' :: TAIL := by
    rw [trimRust_eq_trimEnd_trimStart, trimStart_cons_not_ws (by decide)]
    cases hT : TAIL with
    | nil => exact trimEnd_single (by decide)
    | cons a y => exact trimEnd_append (x := ['(']) (hT ▸ hEnd) (by simp)
  rw [parse_helper, parse_helperF.eq_2, htr]
  have hfuel : parse_helperF (2 * (TAIL.length + 1)) TAIL = parse_helper TAIL :=
    parse_helperF_stable_ge (by omega)
  simp [hfuel, List.length_cons]

/-- One unfolding of `parse_args` on a nonempty remainder. -/
theorem parse_args_cons_step (cx : Nat) (R : List Char) (hne : R ≠ []) :
    parse_args cx R =
      match parse_helper R with
      | .ok (s, tail) =>
        if s.is_blank then .ok (.nil, cx, R)
        else
          match parseArgsF (2 * R.length + 1) (Nat.max cx s.complexity) tail with
          | .ok (args, cx2, rem2) => .ok (.cons s args, cx2, rem2)
          | .err m => .err m
          | .panicked => .panicked
          | .fuel => .fuel
      | .err m => .err m
      | .panicked => .panicked
      | .fuel => .fuel := by
  rw [parse_args]
  simp only [parseArgsF]
  rw [if_neg (by simpa [List.isEmpty_iff] using hne)]
  rfl

/-- Space characters are ASCII. -/
theorem replicate_space_ascii (d : Nat) :
    (List.replicate d ' ').all (fun c => decide (c.toNat < 128)) = true := by
  simp only [List.all_eq_true]
  intro c hc
  rw [List.eq_of_mem_replicate hc]
  decide

/-- The code point of the closing parenthesis. -/
theorem closeParen_toNat : (')' : Char).toNat = 41 := rfl

/-- At a closing parenthesis (possibly after whitespace) the argument loop
breaks at once, keeping its accumulator and its pre-call remainder. -/
theorem parse_args_at_close (cx : Nat) {tailS y : List Char}
    (hty : trimRust tailS = ')' :: y) (htne : tailS ≠ []) :
    parse_args cx tailS = .ok (.nil, cx, tailS) := by
  rw [parse_args_cons_step cx tailS htne]
  have hblank : parse_helper tailS = .ok (Sexpr.blank, ')' :: y) := by
    rw [parse_helper]
    exact parse_helperF_close hty
  rw [hblank]
  simp [Sexpr.blank, Sexpr.is_blank]

/-- Rendering a compound without quantifier compaction: head text, the
argument-loop output, the closing whitespace and `)`.  The separator
pieces are whitespace-only ASCII and the separator is nonempty. -/
theorem write_decomp_plain (h : Sexpr) (as : SexprList) (n : Nat)
    (cfg : FormatArgs)
    (hq : ((cfg.short_quantifiers && h.is_named "forall".data)
        || h.is_named "exists".data) = false) :
    ∃ (sep pre closeWs : List Char) (cfgEl : FormatArgs),
      sep ≠ [] ∧
      (sep ++ pre).all isRustWhitespace = true ∧
      (sep ++ pre).all (fun c => decide (c.toNat < 128)) = true ∧
      closeWs.all isRustWhitespace = true ∧
      closeWs.all (fun c => decide (c.toNat < 128)) = true ∧
      write_helper (.compound h as n) cfg
        = '(' :: (write_helper h FormatArgs.new
            ++ (write_rest as sep pre cfgEl ++ (closeWs ++ [')']))) := by
  by_cases hin : n ≤ cfg.complexity_threshold
  · refine ⟨[' '], [], [], cfg.with_depth 0, by simp, by decide, by decide,
      rfl, rfl, ?_⟩
    rw [write_helper.eq_def]
    simp [hq, hin, Nat.not_lt.mpr hin, List.append_assoc]
  · refine ⟨'\n' :: List.replicate 4 ' ', cfg.tab, '\n' :: cfg.tab,
      cfg.with_depth (cfg.depth + 4), by simp, ?_, ?_, ?_, ?_, ?_⟩
    · show (('\n' :: List.replicate 4 ' ') ++ cfg.tab).all isRustWhitespace = true
      simp only [List.cons_append, List.all_cons, List.all_append,
        Bool.and_eq_true]
      exact ⟨by decide, replicate_space_ws 4, replicate_space_ws cfg.depth⟩
    · show (('\n' :: List.replicate 4 ' ') ++ cfg.tab).all
          (fun c => decide (c.toNat < 128)) = true
      simp only [List.cons_append, List.all_cons, List.all_append,
        Bool.and_eq_true]
      exact ⟨by decide, replicate_space_ascii 4, replicate_space_ascii cfg.depth⟩
    · show (('\n' :: cfg.tab).all isRustWhitespace) = true
      simp only [List.all_cons, Bool.and_eq_true]
      exact ⟨by decide, replicate_space_ws cfg.depth⟩
    · show (('\n' :: cfg.tab).all (fun c => decide (c.toNat < 128))) = true
      simp only [List.all_cons, Bool.and_eq_true]
      exact ⟨by decide, replicate_space_ascii cfg.depth⟩
    · rw [write_helper.eq_def]
      simp [hq, hin, Nat.not_le.mp hin, List.append_assoc, FormatArgs.tab]

/-- Rendering a compacted compound with at least one argument: head text,
one space, the first argument, the remaining-argument loop, whitespace,
`)`. -/
theorem write_decomp_compact_cons (h first : Sexpr) (rest : SexprList)
    (n : Nat) (cfg : FormatArgs)
    (hq : ((cfg.short_quantifiers && h.is_named "forall".data)
        || h.is_named "exists".data) = true) :
    ∃ (sep pre closeWs : List Char) (cfgEl : FormatArgs),
      sep ≠ [] ∧
      (sep ++ pre).all isRustWhitespace = true ∧
      (sep ++ pre).all (fun c => decide (c.toNat < 128)) = true ∧
      closeWs.all isRustWhitespace = true ∧
      closeWs.all (fun c => decide (c.toNat < 128)) = true ∧
      write_helper (.compound h (.cons first rest) n) cfg
        = '(' :: (write_helper h FormatArgs.new
            ++ (' ' :: (write_helper first cfg
              ++ (write_rest rest sep pre cfgEl ++ (closeWs ++ [')']))))) := by
  by_cases hin : n ≤ cfg.complexity_threshold
  · refine ⟨[' '], [], [], cfg.with_depth 0, by simp, by decide, by decide,
      rfl, rfl, ?_⟩
    rw [write_helper.eq_2, if_pos hq]
    simp [hin, Nat.not_lt.mpr hin, List.append_assoc]
  · refine ⟨'\n' :: List.replicate 4 ' ', cfg.tab, '\n' :: cfg.tab,
      cfg.with_depth (cfg.depth + 4), by simp, ?_, ?_, ?_, ?_, ?_⟩
    · show (('\n' :: List.replicate 4 ' ') ++ cfg.tab).all isRustWhitespace = true
      simp only [List.cons_append, List.all_cons, List.all_append,
        Bool.and_eq_true]
      exact ⟨by decide, replicate_space_ws 4, replicate_space_ws cfg.depth⟩
    · show (('\n' :: List.replicate 4 ' ') ++ cfg.tab).all
          (fun c => decide (c.toNat < 128)) = true
      simp only [List.cons_append, List.all_cons, List.all_append,
        Bool.and_eq_true]
      exact ⟨by decide, replicate_space_ascii 4, replicate_space_ascii cfg.depth⟩
    · show (('\n' :: cfg.tab).all isRustWhitespace) = true
      simp only [List.all_cons, Bool.and_eq_true]
      exact ⟨by decide, replicate_space_ws cfg.depth⟩
    · show (('\n' :: cfg.tab).all (fun c => decide (c.toNat < 128))) = true
      simp only [List.all_cons, Bool.and_eq_true]
      exact ⟨by decide, replicate_space_ascii cfg.depth⟩
    · rw [write_helper.eq_2, if_pos hq]
      simp [hin, Nat.not_le.mp hin, List.append_assoc, FormatArgs.tab]

/-- Rendering a compacted compound with no argument: head text, closing
whitespace, `)`. -/
theorem write_decomp_compact_nil (h : Sexpr) (n : Nat) (cfg : FormatArgs)
    (hq : ((cfg.short_quantifiers && h.is_named "forall".data)
        || h.is_named "exists".data) = true) :
    ∃ closeWs : List Char,
      closeWs.all isRustWhitespace = true ∧
      closeWs.all (fun c => decide (c.toNat < 128)) = true ∧
      write_helper (.compound h .nil n) cfg
        = '(' :: (write_helper h FormatArgs.new ++ (closeWs ++ [')'])) := by
  by_cases hin : n ≤ cfg.complexity_threshold
  · refine ⟨[], rfl, rfl, ?_⟩
    rw [write_helper.eq_3, if_pos hq]
    simp [Nat.not_lt.mpr hin]
  · refine ⟨'\n' :: cfg.tab, ?_, ?_, ?_⟩
    · show (('\n' :: cfg.tab).all isRustWhitespace) = true
      simp only [List.all_cons, Bool.and_eq_true]
      exact ⟨by decide, replicate_space_ws cfg.depth⟩
    · show (('\n' :: cfg.tab).all (fun c => decide (c.toNat < 128))) = true
      simp only [List.all_cons, Bool.and_eq_true]
      exact ⟨by decide, replicate_space_ascii cfg.depth⟩
    · rw [write_helper.eq_3, if_pos hq]
      simp [Nat.not_le.mp hin, List.append_assoc]

mutual
/-- Round trip of a single expression: re-parsing the rendering of a
wellformed nonblank tree, followed by any suffix that starts with an
ASCII non-identifier character (or is empty) and carries no leading
whitespace at its seam, recovers the tree and the suffix exactly. -/
theorem rt_expr : ∀ (t : Sexpr) (cfg : FormatArgs) (r : List Char),
    wfS t = true → t.is_blank = false →
    trimEnd r = r → stopper r = true →
    parse_helper (write_helper t cfg ++ r) = .ok (t, r)
  | .atom text nt, cfg, r, hwf, hb, hrEnd, hrStop => by
    simp only [wfS, Bool.and_eq_true, beq_iff_eq] at hwf
    obtain ⟨hall, hnt⟩ := hwf
    subst hnt
    cases text with
    | nil => simp [Sexpr.is_blank] at hb
    | cons c0 text' =>
      have hall' := hall
      simp only [List.all_cons, Bool.and_eq_true, decide_eq_true_eq] at hall'
      obtain ⟨⟨hc0A, hc0I⟩, -⟩ := hall'
      have hws0 : isRustWhitespace c0 = false := is_ident_not_ws hc0I
      show parse_helper ((c0 :: text') ++ r) = .ok (.atom (c0 :: text') 0, r)
      have hTrim : trimRust ((c0 :: text') ++ r) = (c0 :: text') ++ r := by
        rw [trimRust_eq_trimEnd_trimStart, List.cons_append,
          trimStart_cons_not_ws hws0, ← List.cons_append]
        cases hr0 : r with
        | nil =>
          rw [List.append_nil]
          apply trimEnd_of_all_not_ws
          intro c hc
          have h1 := List.all_eq_true.mp hall c hc
          simp only [Bool.and_eq_true] at h1
          exact is_ident_not_ws h1.2
        | cons a y =>
          exact trimEnd_append (hr0 ▸ hrEnd) (by simp)
      have hscan : scanAtom (c0 :: (text' ++ r)) = .ok (c0 :: text', r) := by
        rw [← List.cons_append]
        exact scanAtom_exact (c0 :: text') r hall (stopper_spec hrStop)
      rw [parse_helper, parse_helperF.eq_2, hTrim, List.cons_append]
      simp [Nat.not_le.mpr hc0A, is_ident_ne_open hc0I, hscan]
  | .compound h as n, cfg, r, hwf, _hb, hrEnd, _hrStop => by
    simp only [wfS, Bool.and_eq_true, beq_iff_eq] at hwf
    obtain ⟨⟨⟨hwh, hwl⟩, hbl⟩, hn⟩ := hwf
    have hcr : trimEnd (')' :: r) = ')' :: r := trimEnd_close hrEnd
    by_cases hq : ((cfg.short_quantifiers && h.is_named "forall".data)
        || h.is_named "exists".data) = true
    · -- quantifier compaction fires; the head is a named atom, hence nonblank
      have hNB : h.is_blank = false := by
        cases hhbv : h.is_blank
        · rfl
        · exfalso
          have hhbl : h = Sexpr.blank := blank_wf_eq hhbv hwh
          subst hhbl
          rw [show Sexpr.blank.is_named "forall".data = false from by decide,
            show Sexpr.blank.is_named "exists".data = false from by decide] at hq
          simp at hq
      cases as with
      | nil =>
        obtain ⟨closeWs, hcwWs, hcwAscii, hw⟩ := write_decomp_compact_nil h n cfg hq
        rw [hw, List.cons_append,
          show (write_helper h FormatArgs.new ++ (closeWs ++ [')'])) ++ r
            = write_helper h FormatArgs.new ++ (closeWs ++ ')' :: r) from by
              simp [List.append_assoc]]
        have htailEnd : trimEnd (closeWs ++ ')' :: r) = closeWs ++ ')' :: r :=
          trimEnd_append hcr (by simp)
        have htailTrim : trimRust (closeWs ++ ')' :: r) = ')' :: r :=
          trimRust_ws_close hcwWs hrEnd
        have htailStop : stopper (closeWs ++ ')' :: r) = true :=
          stopper_ws_append hcwWs hcwAscii (stopper_close r)
        have hhead := rt_expr h FormatArgs.new (closeWs ++ ')' :: r)
          hwh hNB htailEnd htailStop
        have hTend : trimEnd (write_helper h FormatArgs.new ++ (closeWs ++ ')' :: r))
            = write_helper h FormatArgs.new ++ (closeWs ++ ')' :: r) :=
          trimEnd_append htailEnd (by simp)
        rw [parse_helper_open _ hTend]
        generalize hN : 2 * ((write_helper h FormatArgs.new
            ++ (closeWs ++ ')' :: r)).length + 1) = N
        have hstab : parseArgsF N h.complexity (closeWs ++ ')' :: r)
            = parse_args h.complexity (closeWs ++ ')' :: r) := by
          apply parseArgsF_stable_ge
          simp only [List.length_append, List.length_cons] at hN ⊢
          omega
        have hloop := parse_args_at_close h.complexity htailTrim (by simp)
        simp [hhead, hstab, hloop, htailTrim, maxCached, hn, closeParen_toNat]
      | cons first rest =>
        obtain ⟨sep, pre, closeWs, cfgEl, hsne, hspWs, hspAscii, hcwWs, hcwAscii, hw⟩ :=
          write_decomp_compact_cons h first rest n cfg hq
        simp only [wfL, Bool.and_eq_true, Bool.not_eq_true'] at hwl
        obtain ⟨⟨hfnb, hwfst⟩, hwrest⟩ := hwl
        rw [hw, List.cons_append,
          show (write_helper h FormatArgs.new ++ (' ' :: (write_helper first cfg
              ++ (write_rest rest sep pre cfgEl ++ (closeWs ++ [')']))))) ++ r
            = write_helper h FormatArgs.new ++ (' ' :: (write_helper first cfg
              ++ (write_rest rest sep pre cfgEl ++ (closeWs ++ ')' :: r)))) from by
              simp [List.append_assoc]]
        set REST2 := write_rest rest sep pre cfgEl ++ (closeWs ++ ')' :: r)
          with hREST2
        have htailEnd : trimEnd (closeWs ++ ')' :: r) = closeWs ++ ')' :: r :=
          trimEnd_append hcr (by simp)
        have htailTrim : trimRust (closeWs ++ ')' :: r) = ')' :: r :=
          trimRust_ws_close hcwWs hrEnd
        have htailStop : stopper (closeWs ++ ')' :: r) = true :=
          stopper_ws_append hcwWs hcwAscii (stopper_close r)
        have hR2End : trimEnd REST2 = REST2 := by
          rw [hREST2]
          exact trimEnd_append htailEnd (by simp)
        have hR2ne : REST2 ≠ [] := by
          rw [hREST2]
          simp
        have hR2Stop : stopper REST2 = true := by
          rw [hREST2]
          exact stopper_write_rest rest sep pre (closeWs ++ ')' :: r) cfgEl
            hsne hspWs hspAscii htailStop
        have hXEnd : trimEnd (write_helper first cfg ++ REST2)
            = write_helper first cfg ++ REST2 := trimEnd_append hR2End hR2ne
        have hXne : write_helper first cfg ++ REST2 ≠ [] := by
          intro hc
          rw [List.append_eq_nil] at hc
          exact hR2ne hc.2
        have hR1End : trimEnd (' ' :: (write_helper first cfg ++ REST2))
            = ' ' :: (write_helper first cfg ++ REST2) := by
          rw [show (' ' :: (write_helper first cfg ++ REST2))
              = [' '] ++ (write_helper first cfg ++ REST2) from rfl]
          exact trimEnd_append hXEnd hXne
        have hR1Stop : stopper (' ' :: (write_helper first cfg ++ REST2)) = true :=
          rfl
        have hhead := rt_expr h FormatArgs.new
          (' ' :: (write_helper first cfg ++ REST2)) hwh hNB hR1End hR1Stop
        have hTend : trimEnd (write_helper h FormatArgs.new
              ++ (' ' :: (write_helper first cfg ++ REST2)))
            = write_helper h FormatArgs.new
              ++ (' ' :: (write_helper first cfg ++ REST2)) :=
          trimEnd_append hR1End (by simp)
        rw [parse_helper_open _ hTend]
        generalize hN : 2 * ((write_helper h FormatArgs.new
            ++ (' ' :: (write_helper first cfg ++ REST2))).length + 1) = N
        have hstab : parseArgsF N
            h.complexity (' ' :: (write_helper first cfg ++ REST2))
            = parse_args h.complexity (' ' :: (write_helper first cfg ++ REST2)) := by
          apply parseArgsF_stable_ge
          simp only [List.length_append, List.length_cons] at hN ⊢
          omega
        have hloopStep : parse_args h.complexity
            (' ' :: (write_helper first cfg ++ REST2))
            = .ok (.cons first rest, maxCached h.complexity (.cons first rest),
                closeWs ++ ')' :: r) := by
          rw [parse_args_cons_step _ _ (by simp)]
          generalize hN2 : 2 * (' ' :: (write_helper first cfg ++ REST2)).length + 1
            = N2
          have hfst : parse_helper (' ' :: (write_helper first cfg ++ REST2))
              = .ok (first, REST2) := by
            rw [show (' ' :: (write_helper first cfg ++ REST2))
                = [' '] ++ (write_helper first cfg ++ REST2) from rfl,
              parse_helper_ws_prepend (by decide)]
            exact rt_expr first cfg REST2 hwfst hfnb hR2End hR2Stop
          rw [hfst]
          have hstab2 : parseArgsF N2
              (Nat.max h.complexity first.complexity) REST2
              = parse_args (Nat.max h.complexity first.complexity) REST2 := by
            apply parseArgsF_stable_ge
            simp only [List.length_cons, List.length_append] at hN2 ⊢
            omega
          have hrec : parse_args (Nat.max h.complexity first.complexity) REST2
              = .ok (rest, maxCached (Nat.max h.complexity first.complexity) rest,
                  closeWs ++ ')' :: r) := by
            rw [hREST2]
            exact rt_args rest sep pre cfgEl
              (Nat.max h.complexity first.complexity) (closeWs ++ ')' :: r)
              hwrest hsne hspWs hspAscii ⟨r, htailTrim⟩ htailEnd htailStop (by simp)
          simp [hfnb, hstab2, hrec, maxCached]
        simp [hhead, hstab, hloopStep, htailTrim, maxCached, hn, closeParen_toNat]
    · -- no compaction: the plain decomposition
      have hqf : ((cfg.short_quantifiers && h.is_named "forall".data)
          || h.is_named "exists".data) = false := by simpa using hq
      obtain ⟨sep, pre, closeWs, cfgEl, hsne, hspWs, hspAscii, hcwWs, hcwAscii, hw⟩ :=
        write_decomp_plain h as n cfg hqf
      by_cases hhb : h.is_blank = true
      · -- blank head: wellformedness forces an empty argument list
        have hhbl : h = Sexpr.blank := blank_wf_eq hhb hwh
        subst hhbl
        have hnil : as = SexprList.nil := by
          cases as with
          | nil => rfl
          | cons a t => simp [Sexpr.blank, Sexpr.is_blank, isNilL] at hbl
        subst hnil
        rw [hw, show write_helper Sexpr.blank FormatArgs.new
            ++ (write_rest SexprList.nil sep pre cfgEl ++ (closeWs ++ [')']))
            = closeWs ++ [')'] from rfl,
          List.cons_append,
          show (closeWs ++ [')']) ++ r = closeWs ++ ')' :: r from by
            simp [List.append_assoc]]
        have htailEnd : trimEnd (closeWs ++ ')' :: r) = closeWs ++ ')' :: r :=
          trimEnd_append hcr (by simp)
        rw [parse_helper_open _ htailEnd]
        generalize hN : 2 * ((closeWs ++ ')' :: r).length + 1) = N
        have hhead : parse_helper (closeWs ++ ')' :: r)
            = .ok (Sexpr.blank, ')' :: r) := parse_helper_blankarg hcwWs hrEnd
        have hstab : parseArgsF N Sexpr.blank.complexity (')' :: r)
            = parse_args Sexpr.blank.complexity (')' :: r) := by
          apply parseArgsF_stable_ge
          simp only [List.length_append, List.length_cons] at hN ⊢
          omega
        have hloop := parse_args_at_close Sexpr.blank.complexity
          (trimRust_close hrEnd) (by simp)
        simp [hhead, hstab, hloop, trimRust_close hrEnd, maxCached, hn,
          closeParen_toNat]
      · have hbF : h.is_blank = false := by simpa using hhb
        rw [hw, List.cons_append,
          show (write_helper h FormatArgs.new
              ++ (write_rest as sep pre cfgEl ++ (closeWs ++ [')']))) ++ r
            = write_helper h FormatArgs.new
              ++ (write_rest as sep pre cfgEl ++ (closeWs ++ ')' :: r)) from by
              simp [List.append_assoc]]
        set REST1 := write_rest as sep pre cfgEl ++ (closeWs ++ ')' :: r)
          with hREST1
        have htailEnd : trimEnd (closeWs ++ ')' :: r) = closeWs ++ ')' :: r :=
          trimEnd_append hcr (by simp)
        have htailTrim : trimRust (closeWs ++ ')' :: r) = ')' :: r :=
          trimRust_ws_close hcwWs hrEnd
        have htailStop : stopper (closeWs ++ ')' :: r) = true :=
          stopper_ws_append hcwWs hcwAscii (stopper_close r)
        have hR1End : trimEnd REST1 = REST1 := by
          rw [hREST1]
          exact trimEnd_append htailEnd (by simp)
        have hR1ne : REST1 ≠ [] := by
          rw [hREST1]
          simp
        have hR1Stop : stopper REST1 = true := by
          rw [hREST1]
          exact stopper_write_rest as sep pre (closeWs ++ ')' :: r) cfgEl
            hsne hspWs hspAscii htailStop
        have hhead := rt_expr h FormatArgs.new REST1 hwh hbF hR1End hR1Stop
        have hTend : trimEnd (write_helper h FormatArgs.new ++ REST1)
            = write_helper h FormatArgs.new ++ REST1 :=
          trimEnd_append hR1End hR1ne
        rw [parse_helper_open _ hTend]
        generalize hN : 2 * ((write_helper h FormatArgs.new ++ REST1).length + 1)
          = N
        have hstab : parseArgsF N h.complexity REST1
            = parse_args h.complexity REST1 := by
          apply parseArgsF_stable_ge
          simp only [List.length_append, List.length_cons] at hN ⊢
          omega
        have hloop : parse_args h.complexity REST1
            = .ok (as, maxCached h.complexity as, closeWs ++ ')' :: r) := by
          rw [hREST1]
          exact rt_args as sep pre cfgEl h.complexity (closeWs ++ ')' :: r)
            hwl hsne hspWs hspAscii ⟨r, htailTrim⟩ htailEnd htailStop (by simp)
        simp [hhead, hstab, hloop, htailTrim, maxCached, hn, closeParen_toNat]
/-- Round trip of the argument loop: re-parsing the loop's rendering of a
wellformed argument list, followed by a remainder whose next
non-whitespace character is `)`, recovers the list, the running maximum
of the cached complexities, and the remainder exactly. -/
theorem rt_args : ∀ (as : SexprList) (sep pre : List Char) (cfgEl : FormatArgs)
    (cx : Nat) (tailS : List Char),
    wfL as = true → sep ≠ [] →
    (sep ++ pre).all isRustWhitespace = true →
    (sep ++ pre).all (fun c => decide (c.toNat < 128)) = true →
    (∃ y, trimRust tailS = ')' :: y) →
    trimEnd tailS = tailS → stopper tailS = true → tailS ≠ [] →
    parse_args cx (write_rest as sep pre cfgEl ++ tailS)
      = .ok (as, maxCached cx as, tailS)
  | .nil, sep, pre, cfgEl, cx, tailS, _hwl, _hsne, _hspWs, _hspAscii, hty,
      _htEnd, _htStop, htne => by
    obtain ⟨y, hty⟩ := hty
    rw [write_rest, List.nil_append, parse_args_at_close cx hty htne]
    simp [maxCached]
  | .cons a rest, sep, pre, cfgEl, cx, tailS, hwl, hsne, hspWs, hspAscii, hty,
      htEnd, htStop, htne => by
    simp only [wfL, Bool.and_eq_true, Bool.not_eq_true'] at hwl
    obtain ⟨⟨hanb, hwa⟩, hwrest⟩ := hwl
    rw [write_rest,
      show (sep ++ pre ++ write_helper a cfgEl ++ write_rest rest sep pre cfgEl)
          ++ tailS
        = (sep ++ pre) ++ (write_helper a cfgEl
            ++ (write_rest rest sep pre cfgEl ++ tailS)) from by
        simp [List.append_assoc]]
    set REST2 := write_rest rest sep pre cfgEl ++ tailS with hREST2
    have hR2ne : REST2 ≠ [] := by
      rw [hREST2]
      intro hc
      rw [List.append_eq_nil] at hc
      exact htne hc.2
    have hR2End : trimEnd REST2 = REST2 := by
      rw [hREST2]
      exact trimEnd_append htEnd htne
    have hR2Stop : stopper REST2 = true := by
      rw [hREST2]
      exact stopper_write_rest rest sep pre tailS cfgEl hsne hspWs hspAscii htStop
    have hstep : parse_helper ((sep ++ pre) ++ (write_helper a cfgEl ++ REST2))
        = .ok (a, REST2) := by
      rw [parse_helper_ws_prepend hspWs]
      exact rt_expr a cfgEl REST2 hwa hanb hR2End hR2Stop
    have hRne : (sep ++ pre) ++ (write_helper a cfgEl ++ REST2) ≠ [] := by
      intro hc
      rw [List.append_eq_nil, List.append_eq_nil] at hc
      exact hsne hc.1.1
    rw [parse_args_cons_step cx _ hRne, hstep]
    generalize hN : 2 * ((sep ++ pre) ++ (write_helper a cfgEl ++ REST2)).length + 1
      = N
    have hs1 : 0 < sep.length := List.length_pos.mpr hsne
    have hstab : parseArgsF N (Nat.max cx a.complexity) REST2
        = parse_args (Nat.max cx a.complexity) REST2 := by
      apply parseArgsF_stable_ge
      simp only [List.length_append, List.length_cons] at hN ⊢
      omega
    have hrec : parse_args (Nat.max cx a.complexity) REST2
        = .ok (rest, maxCached (Nat.max cx a.complexity) rest, tailS) := by
      rw [hREST2]
      exact rt_args rest sep pre cfgEl (Nat.max cx a.complexity) tailS
        hwrest hsne hspWs hspAscii hty htEnd htStop htne
    simp [hanb, hstab, hrec, maxCached]
end

/-- C6: rendering is idempotent through a re-parse.  For every tree
obtained from a successful parse and every config, parsing the rendered
text succeeds, and rendering the re-parsed tree with the same config is
byte-identical to the first render.  (The re-parsed tree is in fact the
original tree whenever it is nonblank; a blank tree renders to the empty
string, which parses back to the blank tree itself.) -/
theorem claim_C6_roundtrip (input : List Char) (cfg : FormatArgs) (t : Sexpr)
    (h : parse input = .ok t) :
    ∃ t2, parse (write_helper t cfg) = .ok t2 ∧
      write_helper t2 cfg = write_helper t cfg := by
  have hwf : wfS t = true := parse_wf h
  by_cases hb : t.is_blank = true
  · have hbl : t = Sexpr.blank := blank_wf_eq hb hwf
    subst hbl
    refine ⟨Sexpr.blank, ?_, rfl⟩
    rw [show write_helper Sexpr.blank cfg = ([] : List Char) from rfl]
    rfl
  · have hbF : t.is_blank = false := by simpa using hb
    have hrt := rt_expr t cfg [] hwf hbF rfl rfl
    refine ⟨t, ?_, rfl⟩
    rw [parse, show write_helper t cfg = write_helper t cfg ++ []
      from (List.append_nil _).symm, hrt]
    rfl

/-- C6 witness: the round trip applied to the parse of "(a b)" with the
default config. -/
theorem claim_C6_witness :
    parse "(a b)".data
      = .ok (Sexpr.compound (mkAtom "a") (.cons (mkAtom "b") .nil) 1) ∧
    ∃ t2, parse (write_helper
        (Sexpr.compound (mkAtom "a") (.cons (mkAtom "b") .nil) 1) ⟨0, 1, false⟩)
      = .ok t2 ∧
      write_helper t2 ⟨0, 1, false⟩
        = write_helper
            (Sexpr.compound (mkAtom "a") (.cons (mkAtom "b") .nil) 1)
            ⟨0, 1, false⟩ :=
  ⟨by rfl, claim_C6_roundtrip "(a b)".data ⟨0, 1, false⟩
    (Sexpr.compound (mkAtom "a") (.cons (mkAtom "b") .nil) 1) (by rfl)⟩

end SexprFmt
